import Mathlib

/-!
# YouTube playlist length calculator: embedding of `main.go`

Go strings are modelled as `List Char`.  Every function below consults only
ASCII characters of its input (the markers `P T H M S`, signs, decimal digits
and the identifier class of the regular expression), so the character view and
Go's byte view agree on where those markers are and on which fields are
numeric.

`time.Duration` is a signed 64-bit count of nanoseconds: it is an `Int` that is
reduced by `wrap64` after every arithmetic operation.  Go's `int` is taken to
be 64 bits wide.

A Go function returning `(value, error)` returns a pair whose second component
is `none` for `nil`.  A run-time panic is the separate outcome `Run.panic`.
-/

set_option autoImplicit false

namespace PlaylistLength

/-! ## Go runtime -/

abbrev GoString := List Char

/-- Run-time panics the program can raise. -/
inductive Panic where
  | sliceBoundsOutOfRange
  | integerDivideByZero
  deriving DecidableEq

/-- Outcome of running a Go function: it returns, or the goroutine panics. -/
inductive Run (α : Type) where
  | ret (a : α)
  | panic (p : Panic)
  deriving DecidableEq

/-- Kind of a `strconv.NumError`. -/
inductive NumErrKind where
  | ErrSyntax
  | ErrRange
  deriving DecidableEq

/-- Error values the program produces or passes on. -/
inductive Error where
  | numError (num : GoString) (kind : NumErrKind)
  | videoNotFound
  | invalidPlaylistURL
  | fetchFailed (msg : GoString)
  deriving DecidableEq

/-- Two's complement reduction of an integer to 64 bits. -/
def wrap64 (x : Int) : Int := (x + 2 ^ 63) % 2 ^ 64 - 2 ^ 63

def Nanosecond : Int := 1
def Second : Int := 1000000000 * Nanosecond
def Minute : Int := 60 * Second
def Hour : Int := 60 * Minute

/-- Integer division `a / b` on 64-bit integers: truncates, panics on a zero divisor. -/
def goDiv (a b : Int) : Run Int :=
  if b = 0 then Run.panic Panic.integerDivideByZero else Run.ret (wrap64 (Int.tdiv a b))

/-- The slice expression `s[a:b]`, which panics unless `0 <= a <= b <= len(s)`. -/
def slice (s : GoString) (a b : Int) : Run GoString :=
  if 0 ≤ a ∧ a ≤ b ∧ b ≤ (s.length : Int) then
    Run.ret ((s.drop a.toNat).take (b.toNat - a.toNat))
  else Run.panic Panic.sliceBoundsOutOfRange

/-- Whether `p` is an initial segment of `s`. -/
def startsWith : GoString → GoString → Bool
  | [], _ => true
  | _ :: _, [] => false
  | p :: ps, c :: cs => p == c && startsWith ps cs

/-- The call `strings.Replace(s, old, "", 1)` for a non-empty `old`: the first
occurrence of `old` is removed. -/
def stringsReplaceFirst (old : GoString) : GoString → GoString
  | [] => []
  | c :: cs =>
    if startsWith old (c :: cs) then (c :: cs).drop old.length
    else c :: stringsReplaceFirst old cs

/-- The call `strings.Index(s, string(c))`: index of the first `c`, or `-1`. -/
def stringsIndex (c : Char) : GoString → Int
  | [] => -1
  | x :: xs =>
    if x = c then 0
    else if stringsIndex c xs = -1 then -1 else stringsIndex c xs + 1

/-! ## strconv.Atoi -/

def isDigit (c : Char) : Bool := 48 ≤ c.toNat && c.toNat ≤ 57

def digitVal (c : Char) : Nat := c.toNat - 48

def isSign (c : Char) : Bool := c == '+' || c == '-'

/-- Digit loop of the fast path of `strconv.Atoi`. -/
def atoiFastLoop : GoString → Int → Option Int
  | [], n => some n
  | ch :: rest, n =>
    if isDigit ch then atoiFastLoop rest (n * 10 + digitVal ch) else none

/-- Fast path of `strconv.Atoi`, taken when `0 < len(s) < 19`. -/
def atoiFast (s0 : GoString) : Int × Option Error :=
  let s := match s0 with
    | c :: rest => if isSign c then rest else s0
    | [] => s0
  if s.length < 1 then (0, some (Error.numError s0 NumErrKind.ErrSyntax))
  else
    match atoiFastLoop s 0 with
    | none => (0, some (Error.numError s0 NumErrKind.ErrSyntax))
    | some n => (if s0.head? = some '-' then -n else n, none)

def maxUint64 : Nat := 2 ^ 64 - 1

/-- Digit loop of `strconv.ParseUint(s, 10, 64)`; `n` is the value read so far. -/
def parseUintLoop : GoString → Nat → Nat × Option NumErrKind
  | [], n => (n, none)
  | c :: rest, n =>
    if !isDigit c then (0, some NumErrKind.ErrSyntax)
    else if n ≥ maxUint64 / 10 + 1 then (maxUint64, some NumErrKind.ErrRange)
    else
      let n10 := n * 10
      let n1 := (n10 + digitVal c) % 2 ^ 64
      if n1 < n10 ∨ n1 > maxUint64 then (maxUint64, some NumErrKind.ErrRange)
      else parseUintLoop rest n1

/-- The call `strconv.ParseUint(s, 10, 64)`. -/
def parseUint (s : GoString) : Nat × Option NumErrKind :=
  if s = [] then (0, some NumErrKind.ErrSyntax) else parseUintLoop s 0

/-- The call `strconv.ParseInt(s, 10, 0)` with a 64-bit `int`. -/
def parseInt (s0 : GoString) : Int × Option Error :=
  if s0 = [] then (0, some (Error.numError s0 NumErrKind.ErrSyntax))
  else
    let neg := s0.head? = some '-'
    let s := match s0 with
      | c :: rest => if isSign c then rest else s0
      | [] => s0
    match parseUint s with
    | (_, some NumErrKind.ErrSyntax) => (0, some (Error.numError s0 NumErrKind.ErrSyntax))
    | (un, _) =>
      if ¬ neg ∧ un ≥ 2 ^ 63 then (2 ^ 63 - 1, some (Error.numError s0 NumErrKind.ErrRange))
      else if neg ∧ un > 2 ^ 63 then (-(2 ^ 63), some (Error.numError s0 NumErrKind.ErrRange))
      else (if neg then wrap64 (-(un : Int)) else wrap64 un, none)

/-- The call `strconv.Atoi(s)`. -/
def Atoi (s : GoString) : Int × Option Error :=
  if 0 < s.length ∧ s.length < 19 then atoiFast s else parseInt s

/-! ## parseDuration -/

/-- The value `time.Duration(hours)*time.Hour + time.Duration(minutes)*time.Minute +
time.Duration(seconds)*time.Second` in 64-bit arithmetic. -/
def durationOfFields (hours minutes seconds : Int) : Int :=
  wrap64 (wrap64 (wrap64 (hours * Hour) + wrap64 (minutes * Minute)) + wrap64 (seconds * Second))

/-- The seconds branch of `parseDuration`: the field is sliced after the minute
marker, else after the hour marker, else from the start, and the conversion
error of `strconv.Atoi` is discarded. -/
def parseSecondsField (durationStr : GoString) (hoursIndex minutesIndex secondsIndex : Int) :
    Run Int :=
  if secondsIndex ≠ -1 then
    if minutesIndex ≠ -1 then
      match slice durationStr (minutesIndex + 1) secondsIndex with
      | Run.panic p => Run.panic p
      | Run.ret f => Run.ret (Atoi f).1
    else if hoursIndex ≠ -1 then
      match slice durationStr (hoursIndex + 1) secondsIndex with
      | Run.panic p => Run.panic p
      | Run.ret f => Run.ret (Atoi f).1
    else
      match slice durationStr 0 secondsIndex with
      | Run.panic p => Run.panic p
      | Run.ret f => Run.ret (Atoi f).1
  else Run.ret 0

/-- The minutes branch of `parseDuration`. -/
def parseMinutesField (durationStr : GoString) (hoursIndex minutesIndex : Int) :
    Run (Int × Option Error) :=
  if minutesIndex ≠ -1 then
    match slice durationStr (hoursIndex + 1) minutesIndex with
    | Run.panic p => Run.panic p
    | Run.ret f => Run.ret (Atoi f)
  else Run.ret (0, none)

/-- The hours branch of `parseDuration`. -/
def parseHoursField (durationStr : GoString) (hoursIndex : Int) : Run (Int × Option Error) :=
  if hoursIndex ≠ -1 then
    match slice durationStr 0 hoursIndex with
    | Run.panic p => Run.panic p
    | Run.ret f => Run.ret (Atoi f)
  else Run.ret (0, none)

/-- The function `parseDuration` of `main.go`. -/
def parseDuration (durationStr0 : GoString) : Run (Int × Option Error) :=
  let durationStr := stringsReplaceFirst ['P', 'T'] durationStr0
  let hoursIndex := stringsIndex 'H' durationStr
  let minutesIndex := stringsIndex 'M' durationStr
  let secondsIndex := stringsIndex 'S' durationStr
  match parseHoursField durationStr hoursIndex with
  | Run.panic p => Run.panic p
  | Run.ret (_, some err) => Run.ret (0, some err)
  | Run.ret (hours, none) =>
    match parseMinutesField durationStr hoursIndex minutesIndex with
    | Run.panic p => Run.panic p
    | Run.ret (_, some err) => Run.ret (0, some err)
    | Run.ret (minutes, none) =>
      match parseSecondsField durationStr hoursIndex minutesIndex secondsIndex with
      | Run.panic p => Run.panic p
      | Run.ret seconds => Run.ret (durationOfFields hours minutes seconds, none)

/-! ## extractPlaylistID -/

/-- The character class `[a-zA-Z0-9_-]`. -/
def isIDChar (c : Char) : Bool :=
  (97 ≤ c.toNat && c.toNat ≤ 122) || (65 ≤ c.toNat && c.toNat ≤ 90) || isDigit c ||
    c == '_' || c == '-'

/-- A match of the expression `list=([a-zA-Z0-9_-]+)` that begins at the first
character of `s`: the whole match and the capture group, the repetition being
greedy. -/
def matchListAt (s : GoString) : Option (List GoString) :=
  if startsWith ['l', 'i', 's', 't', '='] s then
    let id := (s.drop 5).takeWhile isIDChar
    if id = [] then none else some [['l', 'i', 's', 't', '='] ++ id, id]
  else none

/-- The call `re.FindStringSubmatch(url)` for `list=([a-zA-Z0-9_-]+)`: the
leftmost match, or the empty (nil) slice. -/
def findStringSubmatch : GoString → List GoString
  | [] => []
  | c :: cs =>
    match matchListAt (c :: cs) with
    | some m => m
    | none => findStringSubmatch cs

/-- The function `extractPlaylistID` of `main.go`. -/
def extractPlaylistID (url : GoString) : GoString × Option Error :=
  let m := findStringSubmatch url
  if m.length < 2 then ([], some Error.invalidPlaylistURL) else (m.getD 1 [], none)

/-! ## The remote catalog and the aggregation -/

/-- Decoded body of a `playlistItems` response; an item is its `videoId`. -/
structure PlaylistItemsResponse where
  NextPageToken : GoString
  Items : List GoString
  deriving DecidableEq

/-- Decoded body of a `videos` response; an item is its `duration`. -/
structure VideoDurationResponse where
  Items : List GoString
  deriving DecidableEq

/-- A request sent to the remote catalog. -/
inductive Request where
  | playlistItems (pageToken : GoString)
  | videos (id : GoString)
  deriving DecidableEq

/-- Result of `http.Get` followed by the JSON decoding of the body. -/
abbrev Fetch (α : Type) := Except Error α

/-- The function `getVideoDuration` of `main.go`; `videos` answers the request
for one video identifier. -/
def getVideoDuration (videos : GoString → Fetch VideoDurationResponse) (videoID : GoString) :
    Run (Int × Option Error) :=
  match videos videoID with
  | Except.error err => Run.ret (0, some err)
  | Except.ok videoDurationResp =>
    match videoDurationResp.Items with
    | [] => Run.ret (0, some Error.videoNotFound)
    | durationStr :: _ =>
      match parseDuration durationStr with
      | Run.panic p => Run.panic p
      | Run.ret (_, some err) => Run.ret (0, some err)
      | Run.ret (duration, none) => Run.ret (duration, none)

/-- The loop of `getVideosDuration`: `totalDuration` is the running total and
`trace` the requests sent so far. -/
def getVideosDurationLoop (videos : GoString → Fetch VideoDurationResponse) :
    List GoString → Int → List Request → Run (Int × Option Error) × List Request
  | [], totalDuration, trace => (Run.ret (totalDuration, none), trace)
  | videoID :: rest, totalDuration, trace =>
    match getVideoDuration videos videoID with
    | Run.panic p => (Run.panic p, trace ++ [Request.videos videoID])
    | Run.ret (_, some err) => (Run.ret (0, some err), trace ++ [Request.videos videoID])
    | Run.ret (duration, none) =>
      getVideosDurationLoop videos rest (wrap64 (totalDuration + duration))
        (trace ++ [Request.videos videoID])

/-- The function `getVideosDuration` of `main.go`, with the requests it sends. -/
def getVideosDuration (videos : GoString → Fetch VideoDurationResponse)
    (videoIDs : List GoString) : Run (Int × Option Error) × List Request :=
  getVideosDurationLoop videos videoIDs 0 []

/-- The loop of `getPlaylistDetails`.  The first argument holds the responses
the remote gives to the successive `playlistItems` requests; a request sent
when none is left fails.  The item count is not reduced to 64 bits: it grows by
at most the size of one response per request. -/
def getPlaylistDetailsLoop (videos : GoString → Fetch VideoDurationResponse) :
    List (Fetch PlaylistItemsResponse) → GoString → Int → Int → List Request →
      Run (Int × Int × Option Error) × List Request
  | [], nextPageToken, _, _, trace =>
    (Run.ret (0, 0, some (Error.fetchFailed [])), trace ++ [Request.playlistItems nextPageToken])
  | Except.error err :: _, nextPageToken, _, _, trace =>
    (Run.ret (0, 0, some err), trace ++ [Request.playlistItems nextPageToken])
  | Except.ok playlistResp :: later, nextPageToken, totalVideos, totalDuration, trace =>
    let totalVideos1 := totalVideos + (playlistResp.Items.length : Int)
    let videoIDs := playlistResp.Items
    match getVideosDuration videos videoIDs with
    | (Run.panic p, sent) =>
      (Run.panic p, trace ++ [Request.playlistItems nextPageToken] ++ sent)
    | (Run.ret (_, some err), sent) =>
      (Run.ret (0, 0, some err), trace ++ [Request.playlistItems nextPageToken] ++ sent)
    | (Run.ret (videoDuration, none), sent) =>
      let totalDuration1 := wrap64 (totalDuration + videoDuration)
      if playlistResp.NextPageToken = [] then
        (Run.ret (totalVideos1, totalDuration1, none),
          trace ++ [Request.playlistItems nextPageToken] ++ sent)
      else
        getPlaylistDetailsLoop videos later playlistResp.NextPageToken totalVideos1
          totalDuration1 (trace ++ [Request.playlistItems nextPageToken] ++ sent)

/-- The function `getPlaylistDetails` of `main.go`, with the requests it sends. -/
def getPlaylistDetails (videos : GoString → Fetch VideoDurationResponse)
    (pages : List (Fetch PlaylistItemsResponse)) :
    Run (Int × Int × Option Error) × List Request :=
  getPlaylistDetailsLoop videos pages [] 0 0 []

/-! ## main -/

/-- Conversion of a finite `float64` value, given exactly as a rational, to
`time.Duration`: the fraction is discarded. -/
def durationOfFloat (x : ℚ) : Int := wrap64 (Int.tdiv x.num x.den)

/-- The slice `playbackSpeeds` of `main`: 1.25, 1.5, 1.75 and 2.0. -/
def playbackSpeeds : List ℚ := [mkRat 125 100, mkRat 15 10, mkRat 175 100, mkRat 2 1]

/-- The statement `averageLength := totalDuration / time.Duration(numVideos)`. -/
def averageLength (totalDuration numVideos : Int) : Run Int :=
  goDiv totalDuration (wrap64 numVideos)

/-- The statement `adjustedDuration := totalDuration / time.Duration(speed)`. -/
def adjustedDuration (totalDuration : Int) (speed : ℚ) : Run Int :=
  goDiv totalDuration (durationOfFloat speed)

/-- All adjusted durations of the loop over `playbackSpeeds`. -/
def adjustedDurations (totalDuration : Int) : List ℚ → Run (List Int)
  | [] => Run.ret []
  | speed :: rest =>
    match adjustedDuration totalDuration speed with
    | Run.panic p => Run.panic p
    | Run.ret d =>
      match adjustedDurations totalDuration rest with
      | Run.panic p => Run.panic p
      | Run.ret ds => Run.ret (d :: ds)

/-- What `main` prints: an error line, or the statistics of the playlist. -/
inductive Report where
  | failed (err : Error)
  | stats (numVideos : Int) (averageLength : Int) (totalDuration : Int) (adjusted : List Int)
  deriving DecidableEq

/-- The function `main` of `main.go` from the playlist URL on; the breakdown of
each duration into days, hours, minutes and seconds for printing is left out. -/
def main (playlistURL : GoString) (videos : GoString → Fetch VideoDurationResponse)
    (pages : List (Fetch PlaylistItemsResponse)) : Run Report :=
  match extractPlaylistID playlistURL with
  | (_, some err) => Run.ret (Report.failed err)
  | (_, none) =>
    match (getPlaylistDetails videos pages).1 with
    | Run.panic p => Run.panic p
    | Run.ret (_, _, some err) => Run.ret (Report.failed err)
    | Run.ret (numVideos, totalDuration, none) =>
      match averageLength totalDuration numVideos with
      | Run.panic p => Run.panic p
      | Run.ret avg =>
        match adjustedDurations totalDuration playbackSpeeds with
        | Run.panic p => Run.panic p
        | Run.ret adjusted => Run.ret (Report.stats numVideos avg totalDuration adjusted)

/-! ## Vocabulary of the specification -/

/-- Value read from a run of decimal digits, starting from `n`. -/
def digitsFrom (n : Nat) (ds : GoString) : Nat :=
  ds.foldl (fun a c => a * 10 + digitVal c) n

/-- Value of a run of decimal digits. -/
def digitsValue (ds : GoString) : Nat := digitsFrom 0 ds

/-- A non-empty run of decimal digits (leading zeros allowed). -/
def isDecimal (ds : GoString) : Bool := !ds.isEmpty && ds.all isDigit

/-- A field of a duration token: absent, or its digits followed by its marker. -/
def renderField (field : Option GoString) (marker : Char) : GoString :=
  match field with
  | none => []
  | some ds => ds ++ [marker]

/-- Value of a field, an absent field counting as zero. -/
def fieldValue (field : Option GoString) : Nat :=
  match field with
  | none => 0
  | some ds => digitsValue ds

/-- A present field is a non-empty run of decimal digits. -/
def fieldOK (field : Option GoString) : Bool :=
  match field with
  | none => true
  | some ds => isDecimal ds

/-- The token `PT` followed by the present fields in the order hour, minute, second. -/
def fieldsToken (h m s : Option GoString) : GoString :=
  ['P', 'T'] ++ (renderField h 'H' ++ (renderField m 'M' ++ renderField s 'S'))

/-- Decimal form of a natural number. -/
def decimal (n : Nat) : GoString := Nat.toDigits 10 n

/-- The duration-token encoder: each non-zero unit is written, and zero is `PT0S`. -/
def encode (h m s : Nat) : GoString :=
  if h = 0 ∧ m = 0 ∧ s = 0 then ['P', 'T', '0', 'S']
  else
    ['P', 'T'] ++ ((if 0 < h then decimal h ++ ['H'] else []) ++
      ((if 0 < m then decimal m ++ ['M'] else []) ++ (if 0 < s then decimal s ++ ['S'] else [])))

/-- The string left once `PT` is removed from a token made of fields. -/
def fieldsBody (h m s : Option GoString) : GoString :=
  renderField h 'H' ++ (renderField m 'M' ++ renderField s 'S')

/-- Index of the hour marker in a token made of fields. -/
def hoursIndexOf (h : Option GoString) : Int :=
  match h with
  | none => -1
  | some hd => (hd.length : Int)

/-- Index of the minute marker in a token made of fields. -/
def minutesIndexOf (h m : Option GoString) : Int :=
  match m with
  | none => -1
  | some md => ((renderField h 'H').length : Int) + (md.length : Int)

/-- Index of the second marker in a token made of fields. -/
def secondsIndexOf (h m s : Option GoString) : Int :=
  match s with
  | none => -1
  | some sd =>
    ((renderField h 'H').length : Int) + ((renderField m 'M').length : Int) + (sd.length : Int)

/-- Decimal form of an integer that fits a 64-bit `int`: an optional sign, then a
non-empty run of digits. -/
def isInteger (f : GoString) : Bool :=
  match f with
  | [] => false
  | c :: rest =>
    if c = '-' then isDecimal rest && decide (digitsValue rest ≤ 2 ^ 63)
    else if c = '+' then isDecimal rest && decide (digitsValue rest < 2 ^ 63)
    else isDecimal f && decide (digitsValue f < 2 ^ 63)

/-- The markers that occur are in the order hour, minute, second. -/
def markersOrdered (str : GoString) : Prop :=
  (stringsIndex 'H' str ≠ -1 → stringsIndex 'M' str ≠ -1 →
      stringsIndex 'H' str < stringsIndex 'M' str) ∧
    (stringsIndex 'H' str ≠ -1 → stringsIndex 'S' str ≠ -1 →
      stringsIndex 'H' str < stringsIndex 'S' str) ∧
    (stringsIndex 'M' str ≠ -1 → stringsIndex 'S' str ≠ -1 →
      stringsIndex 'M' str < stringsIndex 'S' str)

/-- Where the seconds field starts: after the minute marker, else after the hour
marker, else at the start. -/
def secondsStart (hoursIndex minutesIndex : Int) : Int :=
  if minutesIndex ≠ -1 then minutesIndex + 1 else hoursIndex + 1

/-- The hour and minute fields that the code slices are accepted by `strconv.Atoi`. -/
def fieldsAccepted (str : GoString) : Prop :=
  (stringsIndex 'H' str ≠ -1 → ∃ field,
      str.take (stringsIndex 'H' str + 1).toNat = field ++ ['H'] ∧ (Atoi field).2 = none) ∧
    (stringsIndex 'M' str ≠ -1 → ∃ field,
      str.take (stringsIndex 'M' str + 1).toNat =
        str.take (stringsIndex 'H' str + 1).toNat ++ field ++ ['M'] ∧ (Atoi field).2 = none)

/-- The text from the start of the stripped string to its first `H`. -/
def IsHourField (str f : GoString) : Prop :=
  ∃ post, str = f ++ 'H' :: post ∧ 'H' ∉ f

/-- The text that ends at the first `M` of the stripped string and begins after
the first `H` when an `H` comes before that `M`, at the start otherwise. -/
def IsMinuteField (str f : GoString) : Prop :=
  ∃ pre post, str = pre ++ f ++ 'M' :: post ∧ 'M' ∉ pre ++ f ∧
    ((pre = [] ∧ 'H' ∉ f) ∨ ∃ h, pre = h ++ ['H'] ∧ 'H' ∉ h)

instance markersOrderedDecidable (str : GoString) : Decidable (markersOrdered str) := by
  unfold markersOrdered
  infer_instance

/-- The literal `list=` of the regular expression. -/
def listEq : GoString := ['l', 'i', 's', 't', '=']

/-- The url has an occurrence of `list=` immediately followed by a character of
the class `[A-Za-z0-9_-]`, starting right after `pre`. -/
def OccursAfter (url pre : GoString) : Prop :=
  ∃ c post, url = pre ++ listEq ++ c :: post ∧ isIDChar c = true

/-- The lookup of `id` returns at least one record and the duration token of the
first record parses to `dur id`. -/
def Resolves (videos : GoString → Fetch VideoDurationResponse) (dur : GoString → Int)
    (id : GoString) : Prop :=
  ∃ tok more, videos id = Except.ok ⟨tok :: more⟩ ∧ parseDuration tok = Run.ret (dur id, none)

/-- The lookup of `id` fails with `err`: the fetch fails, or the catalog reports
no record, or the duration token is rejected. -/
def ItemFails (videos : GoString → Fetch VideoDurationResponse) (id : GoString)
    (err : Error) : Prop :=
  videos id = Except.error err ∨
    (videos id = Except.ok ⟨[]⟩ ∧ err = Error.videoNotFound) ∨
    ∃ tok more d, videos id = Except.ok ⟨tok :: more⟩ ∧ parseDuration tok = Run.ret (d, some err)

/-- The response at which the aggregation fails with `err`: the fetch of the page
fails, or the lookup of one of its items does, the items before it resolving. -/
def PageFails (videos : GoString → Fetch VideoDurationResponse) (dur : GoString → Int)
    (resp : Fetch PlaylistItemsResponse) (err : Error) : Prop :=
  resp = Except.error err ∨
    ∃ token good bad rest, resp = Except.ok ⟨token, good ++ bad :: rest⟩ ∧
      (∀ id ∈ good, Resolves videos dur id) ∧ ItemFails videos bad err

/-- Number of items of a run of pages. -/
def itemCount (pages : List PlaylistItemsResponse) : Int :=
  (pages.map fun p => (p.Items.length : Int)).sum

/-- Sum of the durations of the items of a run of pages. -/
def durationSum (dur : GoString → Int) (pages : List PlaylistItemsResponse) : Int :=
  (pages.map fun p => (p.Items.map dur).sum).sum

/-- Requests sent for a run of pages: each page is requested with the token of
the page before it, then each of its items is looked up. -/
def expectedTrace : GoString → List PlaylistItemsResponse → List Request
  | _, [] => []
  | token, p :: ps =>
    Request.playlistItems token :: (p.Items.map Request.videos ++
      expectedTrace p.NextPageToken ps)

/-- Token passed to the request that follows a run of pages. -/
def tokenAfter : GoString → List PlaylistItemsResponse → GoString
  | token, [] => token
  | _, p :: ps => tokenAfter p.NextPageToken ps

/-- A sample catalog: `a` lasts 3 min 20 s, `b` lasts 5 min, `x` has no record,
`y` has a malformed duration token, and every other lookup fails. -/
def sampleVideos (id : GoString) : Fetch VideoDurationResponse :=
  if id = ['a'] then Except.ok ⟨["PT3M20S".toList]⟩
  else if id = ['b'] then Except.ok ⟨["PT5M".toList]⟩
  else if id = ['x'] then Except.ok ⟨[]⟩
  else if id = ['y'] then Except.ok ⟨["PTxM".toList]⟩
  else Except.error (Error.fetchFailed "timeout".toList)

/-- Durations of the items of the sample catalog. -/
def sampleDur (id : GoString) : Int :=
  if id = ['a'] then 200 * Second else 300 * Second

/-- First sample page: 50 items of 200 s each and a continuation token. -/
def samplePage1 : PlaylistItemsResponse := ⟨"CDIQAA".toList, List.replicate 50 ['a']⟩

/-- Second sample page: 3 items of 300 s each and no continuation token. -/
def samplePage2 : PlaylistItemsResponse := ⟨[], List.replicate 3 ['b']⟩

/-- A catalog of long videos: every lookup returns `PT2562047H`. -/
def longVideos (_ : GoString) : Fetch VideoDurationResponse :=
  Except.ok ⟨["PT2562047H".toList]⟩

/-- Duration of a long video: 2562047 hours. -/
def longDur (_ : GoString) : Int := 2562047 * Hour

/-- A single page with two long videos and no continuation token. -/
def longPage : PlaylistItemsResponse := ⟨[], [['c'], ['c']]⟩

/-! # Theorems -/

/-! ## Arithmetic of 64-bit values -/

theorem wrap64_of_range (x : Int) (h1 : -(2 ^ 63) ≤ x) (h2 : x < 2 ^ 63) : wrap64 x = x := by
  unfold wrap64
  omega

theorem durationOfFields_exact (h m s : Nat)
    (hfit : ((h * 3600 + m * 60 + s : Nat) : Int) * Second < 2 ^ 63) :
    durationOfFields h m s = ((h * 3600 + m * 60 + s : Nat) : Int) * Second := by
  unfold durationOfFields
  simp only [Hour, Minute, Second, Nanosecond] at *
  push_cast at hfit ⊢
  rw [wrap64_of_range ((h : Int) * _) (by omega) (by omega),
    wrap64_of_range ((m : Int) * _) (by omega) (by omega),
    wrap64_of_range ((s : Int) * _) (by omega) (by omega),
    wrap64_of_range ((h : Int) * _ + (m : Int) * _) (by omega) (by omega),
    wrap64_of_range _ (by omega) (by omega)]
  ring

/-! ## strconv.Atoi on runs of digits -/

theorem digitsFrom_cons (n : Nat) (c : Char) (ds : GoString) :
    digitsFrom n (c :: ds) = digitsFrom (n * 10 + digitVal c) ds := rfl

theorem le_digitsFrom (ds : GoString) : ∀ n : Nat, n ≤ digitsFrom n ds := by
  induction ds with
  | nil => intro n; exact Nat.le_refl n
  | cons c ds ih =>
    intro n
    rw [digitsFrom_cons]
    have := ih (n * 10 + digitVal c)
    omega

theorem atoiFastLoop_digits (ds : GoString) (hds : ds.all isDigit = true) :
    ∀ n : Nat, atoiFastLoop ds (n : Int) = some ((digitsFrom n ds : Nat) : Int) := by
  induction ds with
  | nil => intro n; rfl
  | cons c ds ih =>
    intro n
    simp only [List.all_cons, Bool.and_eq_true] at hds
    rw [atoiFastLoop, if_pos hds.1, digitsFrom_cons, ← ih hds.2]
    push_cast
    rfl

theorem parseUintLoop_digits (ds : GoString) (hds : ds.all isDigit = true) :
    ∀ n : Nat, digitsFrom n ds < 2 ^ 64 → parseUintLoop ds n = (digitsFrom n ds, none) := by
  induction ds with
  | nil => intro n _; rfl
  | cons c ds ih =>
    intro n hn
    simp only [List.all_cons, Bool.and_eq_true] at hds
    rw [digitsFrom_cons] at hn ⊢
    have hle := le_digitsFrom ds (n * 10 + digitVal c)
    have hmod : (n * 10 + digitVal c) % 2 ^ 64 = n * 10 + digitVal c :=
      Nat.mod_eq_of_lt (by omega)
    rw [parseUintLoop]
    simp only [hds.1, Bool.not_true, Bool.false_eq_true, if_false, maxUint64, hmod]
    rw [if_neg (by omega), if_neg (by omega)]
    exact ih hds.2 _ hn

theorem isDigit_not_sign (c : Char) (h : isDigit c = true) : isSign c = false := by
  have h1 : c ≠ '+' := by rintro rfl; revert h; decide
  have h2 : c ≠ '-' := by rintro rfl; revert h; decide
  simp [isSign, h1, h2]

theorem Atoi_decimal (ds : GoString) (hds : isDecimal ds = true) (hv : digitsValue ds < 2 ^ 63) :
    Atoi ds = (((digitsValue ds : Nat) : Int), none) := by
  cases ds with
  | nil => simp [isDecimal] at hds
  | cons c cs =>
    simp only [isDecimal, List.isEmpty_cons, Bool.not_false, Bool.true_and] at hds
    have hc : isDigit c = true := by
      simp only [List.all_cons, Bool.and_eq_true] at hds
      exact hds.1
    have hsign := isDigit_not_sign c hc
    have hneg : c ≠ '-' := by rintro rfl; revert hc; decide
    unfold Atoi
    split
    · have h0 := atoiFastLoop_digits (c :: cs) hds 0
      simp only [atoiFast, hsign, Bool.false_eq_true, if_false, List.length_cons]
      rw [if_neg (by omega)]
      simp only [Nat.cast_zero] at h0
      rw [h0]
      simp [hneg, digitsValue]
    · have h0 := parseUintLoop_digits (c :: cs) hds 0 (by unfold digitsValue at hv; omega)
      simp only [parseInt, parseUint, hsign, Bool.false_eq_true, if_false, h0, List.head?_cons,
        Option.some.injEq, hneg, reduceCtorEq]
      have hv2 : ¬ ((digitsFrom 0 (c :: cs) : Nat) ≥ 2 ^ 63) := by
        unfold digitsValue at hv; omega
      simp only [hv2, and_false, false_and, if_false, digitsValue]
      rw [wrap64_of_range _ (by omega) (by unfold digitsValue at hv; omega)]

/-! ## strings.Replace, strings.Index and slicing -/

theorem stringsReplaceFirst_PT (rest : GoString) :
    stringsReplaceFirst ['P', 'T'] ('P' :: 'T' :: rest) = rest := by
  simp [stringsReplaceFirst, startsWith]

theorem stringsIndex_of_not_mem (c : Char) (s : GoString) (h : c ∉ s) :
    stringsIndex c s = -1 := by
  induction s with
  | nil => rfl
  | cons x xs ih =>
    simp only [List.mem_cons, not_or] at h
    rw [stringsIndex, if_neg (fun e : x = c => h.1 e.symm), ih h.2]
    rfl

theorem stringsIndex_append_cons (c : Char) (pre post : GoString) (h : c ∉ pre) :
    stringsIndex c (pre ++ c :: post) = (pre.length : Int) := by
  induction pre with
  | nil => simp [stringsIndex]
  | cons x xs ih =>
    simp only [List.mem_cons, not_or] at h
    have hx := ih h.2
    rw [List.cons_append, stringsIndex, if_neg (fun e : x = c => h.1 e.symm), hx,
      if_neg (by omega), List.length_cons]
    push_cast
    rfl

theorem stringsIndex_spec (c : Char) (s : GoString) :
    (stringsIndex c s = -1 ∧ c ∉ s) ∨
      ∃ pre post, s = pre ++ c :: post ∧ c ∉ pre ∧ stringsIndex c s = (pre.length : Int) := by
  by_cases h : c ∈ s
  · right
    obtain ⟨pre, post, hs, hpre⟩ := List.eq_append_cons_of_mem h
    exact ⟨pre, post, hs, hpre, by rw [hs]; exact stringsIndex_append_cons c pre post hpre⟩
  · exact Or.inl ⟨stringsIndex_of_not_mem c s h, h⟩

/-- A slice expression panics exactly when its bounds are out of range. -/
theorem slice_panic_iff (s : GoString) (a b : Int) :
    (∃ p, slice s a b = Run.panic p) ↔ ¬ (0 ≤ a ∧ a ≤ b ∧ b ≤ (s.length : Int)) := by
  unfold slice
  constructor
  · rintro ⟨p, hp⟩ hin
    rw [if_pos hin] at hp
    exact Run.noConfusion hp
  · intro hout
    exact ⟨Panic.sliceBoundsOutOfRange, if_neg hout⟩

theorem slice_mid (s pre mid post : GoString) (a b : Int) (hs : s = pre ++ (mid ++ post))
    (ha : a = (pre.length : Int)) (hb : b = (pre.length : Int) + (mid.length : Int)) :
    slice s a b = Run.ret mid := by
  subst hs ha hb
  unfold slice
  rw [if_pos (by simp only [List.length_append]; omega)]
  have h1 : ((pre.length : Int)).toNat = pre.length := Int.toNat_natCast _
  have h2 : ((pre.length : Int) + (mid.length : Int)).toNat - pre.length = mid.length := by omega
  rw [h1, h2, List.drop_left, List.take_left]

/-! ## parseDuration on tokens made of well-formed fields -/

theorem not_mem_of_isDecimal (c : Char) (ds : GoString) (hds : isDecimal ds = true)
    (hc : isDigit c = false) : c ∉ ds := by
  intro hmem
  simp only [isDecimal, Bool.and_eq_true, List.all_eq_true] at hds
  rw [hds.2 c hmem] at hc
  exact Bool.noConfusion hc

theorem not_mem_renderField (c marker : Char) (field : Option GoString)
    (hf : fieldOK field = true) (hc : isDigit c = false) (hne : c ≠ marker) :
    c ∉ renderField field marker := by
  cases field with
  | none => simp [renderField]
  | some ds =>
    simp only [renderField, List.mem_append, List.mem_singleton, not_or]
    exact ⟨not_mem_of_isDecimal c ds hf hc, hne⟩

theorem stringsIndex_append_of_not_mem (c : Char) (a b : GoString) (h : c ∉ a) :
    stringsIndex c (a ++ b) =
      if stringsIndex c b = -1 then -1 else (a.length : Int) + stringsIndex c b := by
  rcases stringsIndex_spec c b with ⟨hb, hnb⟩ | ⟨pre, post, hb, hpre, hidx⟩
  · rw [hb, if_pos rfl]
    exact stringsIndex_of_not_mem c _ (by simp [h, hnb])
  · rw [hidx, if_neg (by omega), hb, ← List.append_assoc,
      stringsIndex_append_cons c (a ++ pre) post (by simp [h, hpre])]
    simp

theorem stringsIndex_renderField (c : Char) (field : Option GoString) (rest : GoString)
    (hf : fieldOK field = true) (hc : isDigit c = false) (hrest : c ∉ rest) :
    stringsIndex c (renderField field c ++ rest) = hoursIndexOf field := by
  cases field with
  | none => simpa [renderField] using stringsIndex_of_not_mem c rest hrest
  | some ds =>
    simp only [renderField, List.append_assoc, List.singleton_append, hoursIndexOf]
    exact stringsIndex_append_cons c ds rest (not_mem_of_isDecimal c ds hf hc)

theorem hoursIndexOf_succ (h : Option GoString) :
    hoursIndexOf h + 1 = ((renderField h 'H').length : Int) := by
  cases h with
  | none => rfl
  | some hd => simp [hoursIndexOf, renderField]

theorem hoursIndex_fieldsBody (h m s : Option GoString) (hh : fieldOK h = true)
    (hm : fieldOK m = true) (hs : fieldOK s = true) :
    stringsIndex 'H' (fieldsBody h m s) = hoursIndexOf h := by
  unfold fieldsBody
  apply stringsIndex_renderField 'H' h _ hh (by decide)
  rw [List.mem_append, not_or]
  exact ⟨not_mem_renderField 'H' 'M' m hm (by decide) (by decide),
    not_mem_renderField 'H' 'S' s hs (by decide) (by decide)⟩

theorem minutesIndex_fieldsBody (h m s : Option GoString) (hh : fieldOK h = true)
    (hm : fieldOK m = true) (hs : fieldOK s = true) :
    stringsIndex 'M' (fieldsBody h m s) = minutesIndexOf h m := by
  unfold fieldsBody minutesIndexOf
  rw [stringsIndex_append_of_not_mem 'M' _ _
      (not_mem_renderField 'M' 'H' h hh (by decide) (by decide)),
    stringsIndex_renderField 'M' m _ hm (by decide)
      (not_mem_renderField 'M' 'S' s hs (by decide) (by decide))]
  cases m with
  | none => rfl
  | some md =>
    simp only [hoursIndexOf]
    exact if_neg (by omega)

theorem secondsIndex_fieldsBody (h m s : Option GoString) (hh : fieldOK h = true)
    (hm : fieldOK m = true) (hs : fieldOK s = true) :
    stringsIndex 'S' (fieldsBody h m s) = secondsIndexOf h m s := by
  unfold fieldsBody secondsIndexOf
  have hS : stringsIndex 'S' (renderField s 'S') = hoursIndexOf s := by
    have := stringsIndex_renderField 'S' s [] hs (by decide) (List.not_mem_nil _)
    simpa using this
  rw [stringsIndex_append_of_not_mem 'S' _ _
      (not_mem_renderField 'S' 'H' h hh (by decide) (by decide)),
    stringsIndex_append_of_not_mem 'S' _ _
      (not_mem_renderField 'S' 'M' m hm (by decide) (by decide)), hS]
  cases s with
  | none => rfl
  | some sd =>
    simp only [hoursIndexOf]
    rw [if_neg (by omega), if_neg (by omega)]
    omega

theorem parseHoursField_fieldsBody (h m s : Option GoString) (hh : fieldOK h = true)
    (hv : fieldValue h < 2 ^ 63) :
    parseHoursField (fieldsBody h m s) (hoursIndexOf h) =
      Run.ret (((fieldValue h : Nat) : Int), none) := by
  cases h with
  | none => rfl
  | some hd =>
    have hsl : slice (fieldsBody (some hd) m s) 0 (hd.length : Int) = Run.ret hd :=
      slice_mid _ [] hd (['H'] ++ (renderField m 'M' ++ renderField s 'S')) _ _
        (by simp [fieldsBody, renderField]) (by simp) (by simp)
    simp only [parseHoursField, hoursIndexOf]
    rw [if_pos (by omega), hsl]
    simp only [Atoi_decimal hd hh hv, fieldValue]

theorem parseMinutesField_fieldsBody (h m s : Option GoString) (hm : fieldOK m = true)
    (hv : fieldValue m < 2 ^ 63) :
    parseMinutesField (fieldsBody h m s) (hoursIndexOf h) (minutesIndexOf h m) =
      Run.ret (((fieldValue m : Nat) : Int), none) := by
  cases m with
  | none => rfl
  | some md =>
    have hsl : slice (fieldsBody h (some md) s) (hoursIndexOf h + 1)
        (((renderField h 'H').length : Int) + (md.length : Int)) = Run.ret md :=
      slice_mid _ (renderField h 'H') md (['M'] ++ renderField s 'S') _ _
        (by simp [fieldsBody, renderField]) (hoursIndexOf_succ h) rfl
    simp only [parseMinutesField, minutesIndexOf]
    rw [if_pos (by omega), hsl]
    simp only [Atoi_decimal md hm hv, fieldValue]

theorem parseSecondsField_fieldsBody (h m s : Option GoString) (hs : fieldOK s = true)
    (hv : fieldValue s < 2 ^ 63) :
    parseSecondsField (fieldsBody h m s) (hoursIndexOf h) (minutesIndexOf h m)
      (secondsIndexOf h m s) = Run.ret ((fieldValue s : Nat) : Int) := by
  cases s with
  | none => rfl
  | some sd =>
    have hsl : ∀ a : Int,
        a = ((renderField h 'H').length : Int) + ((renderField m 'M').length : Int) →
        slice (fieldsBody h m (some sd)) a (secondsIndexOf h m (some sd)) = Run.ret sd := by
      intro a ha
      exact slice_mid _ (renderField h 'H' ++ renderField m 'M') sd ['S'] _ _
        (by simp [fieldsBody, renderField]) (by simp [ha]) (by simp [secondsIndexOf])
    have hsI : secondsIndexOf h m (some sd) ≠ -1 := by
      simp only [secondsIndexOf]
      omega
    have hA : (Atoi sd).1 = ((fieldValue (some sd) : Nat) : Int) := by
      rw [Atoi_decimal sd hs hv]
      rfl
    rw [parseSecondsField, if_pos hsI]
    cases m with
    | some md =>
      have hmI : minutesIndexOf h (some md) ≠ -1 := by
        simp only [minutesIndexOf]
        omega
      rw [if_pos hmI, hsl _ (by simp [minutesIndexOf, renderField]; omega)]
      simp only [hA]
    | none =>
      rw [if_neg (by simp [minutesIndexOf])]
      cases h with
      | some hd =>
        rw [if_pos (by simp only [hoursIndexOf]; omega),
          hsl _ (by simp [hoursIndexOf, renderField])]
        simp only [hA]
      | none =>
        rw [if_neg (by simp [hoursIndexOf]), hsl _ (by simp [renderField])]
        simp only [hA]

/-- Tokens made of well-formed fields parse to the value of their fields. -/
theorem parseDuration_fieldsToken (h m s : Option GoString) (hh : fieldOK h = true)
    (hm : fieldOK m = true) (hs : fieldOK s = true)
    (hfit : ((fieldValue h * 3600 + fieldValue m * 60 + fieldValue s : Nat) : Int) * Second
      < 2 ^ 63) :
    parseDuration (fieldsToken h m s) =
      Run.ret (((fieldValue h * 3600 + fieldValue m * 60 + fieldValue s : Nat) : Int) * Second,
        none) := by
  have hbody : stringsReplaceFirst ['P', 'T'] (fieldsToken h m s) = fieldsBody h m s :=
    stringsReplaceFirst_PT _
  have hfit2 := hfit
  simp only [Second, Nanosecond] at hfit2
  push_cast at hfit2
  unfold parseDuration
  simp only [hbody, hoursIndex_fieldsBody h m s hh hm hs, minutesIndex_fieldsBody h m s hh hm hs,
    secondsIndex_fieldsBody h m s hh hm hs,
    parseHoursField_fieldsBody h m s hh (by omega),
    parseMinutesField_fieldsBody h m s hm (by omega),
    parseSecondsField_fieldsBody h m s hs (by omega)]
  rw [durationOfFields_exact _ _ _ hfit]

/-! ## The decimal form of a natural number -/

theorem digitChar_isDigit (k : Nat) (hk : k < 10) :
    isDigit (Nat.digitChar k) = true ∧ digitVal (Nat.digitChar k) = k := by
  interval_cases k <;> exact ⟨by decide, by decide⟩

theorem digitsValue_append_singleton (ds : GoString) (c : Char) :
    digitsValue (ds ++ [c]) = digitsValue ds * 10 + digitVal c := by
  simp [digitsValue, digitsFrom, List.foldl_append]

theorem isDecimal_append_singleton (ds : GoString) (c : Char) (hds : isDecimal ds = true)
    (hc : isDigit c = true) : isDecimal (ds ++ [c]) = true := by
  simp only [isDecimal, Bool.and_eq_true, List.all_eq_true, Bool.not_eq_true',
    List.isEmpty_eq_false] at hds ⊢
  refine ⟨by simp, ?_⟩
  intro x hx
  rcases List.mem_append.mp hx with h | h
  · exact hds.2 x h
  · rw [List.mem_singleton.mp h]
    exact hc

theorem toDigitsCore_decimal (fuel : Nat) :
    ∀ (n : Nat) (acc : List Char), n < fuel →
      ∃ ds, Nat.toDigitsCore 10 fuel n acc = ds ++ acc ∧ isDecimal ds = true ∧
        digitsValue ds = n := by
  induction fuel with
  | zero => intro n acc hn; omega
  | succ fuel ih =>
    intro n acc hn
    have hd := digitChar_isDigit (n % 10) (Nat.mod_lt n (by decide))
    by_cases hq : n / 10 = 0
    · refine ⟨[Nat.digitChar (n % 10)], ?_, ?_, ?_⟩
      · simp [Nat.toDigitsCore, hq]
      · simp [isDecimal, hd.1]
      · have : digitsValue [Nat.digitChar (n % 10)] = digitVal (Nat.digitChar (n % 10)) := by
          simp [digitsValue, digitsFrom]
        rw [this, hd.2]
        omega
    · obtain ⟨ds, hds, hdec, hval⟩ := ih (n / 10) (Nat.digitChar (n % 10) :: acc) (by omega)
      refine ⟨ds ++ [Nat.digitChar (n % 10)], ?_, ?_, ?_⟩
      · simp [Nat.toDigitsCore, hq, hds]
      · exact isDecimal_append_singleton ds _ hdec hd.1
      · rw [digitsValue_append_singleton, hval, hd.2]
        omega

theorem decimal_spec (n : Nat) : isDecimal (decimal n) = true ∧ digitsValue (decimal n) = n := by
  obtain ⟨ds, hds, hdec, hval⟩ := toDigitsCore_decimal (n + 1) n [] (Nat.lt_succ_self n)
  have : decimal n = ds := by
    simpa [decimal, Nat.toDigits] using hds
  rw [this]
  exact ⟨hdec, hval⟩

/-- The encoder writes a token made of fields: a unit that is zero is absent,
and zero itself is the seconds field `0`. -/
theorem encode_eq_fieldsToken (h m s : Nat) :
    encode h m s =
      if h = 0 ∧ m = 0 ∧ s = 0 then fieldsToken none none (some ['0'])
      else fieldsToken (if 0 < h then some (decimal h) else none)
        (if 0 < m then some (decimal m) else none) (if 0 < s then some (decimal s) else none) := by
  unfold encode
  split
  · rfl
  · by_cases hh : 0 < h <;> by_cases hm : 0 < m <;> by_cases hs : 0 < s <;>
      simp [hh, hm, hs, fieldsToken, renderField]

theorem fieldOK_unit (n : Nat) : fieldOK (if 0 < n then some (decimal n) else none) = true := by
  split
  · exact (decimal_spec n).1
  · rfl

theorem fieldValue_unit (n : Nat) : fieldValue (if 0 < n then some (decimal n) else none) = n := by
  split
  · exact (decimal_spec n).2
  · simp only [fieldValue]
    omega

/-! ## Claims about parseDuration -/

/-- C1: decoding the encoding of (h, m, s) succeeds and yields exactly
h*3600 + m*60 + s seconds, whenever that duration fits the 64-bit nanosecond
count. -/
theorem parseDuration_encode (h m s : Nat)
    (hfit : ((h * 3600 + m * 60 + s : Nat) : Int) * Second < 2 ^ 63) :
    parseDuration (encode h m s) =
      Run.ret (((h * 3600 + m * 60 + s : Nat) : Int) * Second, none) := by
  rw [encode_eq_fieldsToken]
  split
  · rename_i h0
    obtain ⟨rfl, rfl, rfl⟩ := h0
    decide
  · have key := parseDuration_fieldsToken (if 0 < h then some (decimal h) else none)
      (if 0 < m then some (decimal m) else none) (if 0 < s then some (decimal s) else none)
      (fieldOK_unit h) (fieldOK_unit m) (fieldOK_unit s)
    simp only [fieldValue_unit] at key
    exact key hfit

/-- Witness of C1: the tokens `PT4M13S`, `PT1H`, `PT45S` and `PT2H` are encodings
and decode to 253, 3600, 45 and 7200 seconds. -/
theorem parseDuration_encode_witness :
    (encode 0 4 13 = "PT4M13S".toList ∧
      parseDuration "PT4M13S".toList = Run.ret (253 * Second, none)) ∧
    (encode 1 0 0 = "PT1H".toList ∧
      parseDuration "PT1H".toList = Run.ret (3600 * Second, none)) ∧
    (encode 0 0 45 = "PT45S".toList ∧
      parseDuration "PT45S".toList = Run.ret (45 * Second, none)) ∧
    (encode 2 0 0 = "PT2H".toList ∧
      parseDuration "PT2H".toList = Run.ret (7200 * Second, none)) :=
  ⟨⟨by decide, parseDuration_encode 0 4 13 (by decide)⟩,
    ⟨by decide, parseDuration_encode 1 0 0 (by decide)⟩,
    ⟨by decide, parseDuration_encode 0 0 45 (by decide)⟩,
    ⟨by decide, parseDuration_encode 2 0 0 (by decide)⟩⟩

/-- C8: for every subset of the hour, minute and second fields and every
decimal value (zero and leading zeros allowed) in each present field, the token
`PT` followed by the present fields parses without error to
hours*3600 + minutes*60 + seconds seconds, an absent field counting as zero,
whenever that duration fits the 64-bit nanosecond count. -/
theorem parseDuration_any_subset_of_fields (h m s : Option GoString) (hh : fieldOK h = true)
    (hm : fieldOK m = true) (hs : fieldOK s = true)
    (hfit : ((fieldValue h * 3600 + fieldValue m * 60 + fieldValue s : Nat) : Int) * Second
      < 2 ^ 63) :
    parseDuration (fieldsToken h m s) =
      Run.ret (((fieldValue h * 3600 + fieldValue m * 60 + fieldValue s : Nat) : Int) * Second,
        none) :=
  parseDuration_fieldsToken h m s hh hm hs hfit

/-- Witness of C8: no field (`PT`), a seconds field alone, leading zeros, and
all three fields. -/
theorem parseDuration_any_subset_of_fields_witness :
    parseDuration "PT".toList = Run.ret (0 * Second, none) ∧
    parseDuration "PT45S".toList = Run.ret (45 * Second, none) ∧
    parseDuration "PT007M0S".toList = Run.ret (420 * Second, none) ∧
    parseDuration "PT1H02M03S".toList = Run.ret (3723 * Second, none) :=
  ⟨parseDuration_any_subset_of_fields none none none (by decide) (by decide) (by decide)
      (by decide),
    parseDuration_any_subset_of_fields none none (some "45".toList) (by decide) (by decide)
      (by decide) (by decide),
    parseDuration_any_subset_of_fields none (some "007".toList) (some "0".toList) (by decide)
      (by decide) (by decide) (by decide),
    parseDuration_any_subset_of_fields (some "1".toList) (some "02".toList) (some "03".toList)
      (by decide) (by decide) (by decide) (by decide)⟩

/-! ## What strconv.Atoi accepts -/

theorem atoiFastLoop_some (s : GoString) :
    ∀ (n v : Int), atoiFastLoop s n = some v → s.all isDigit = true := by
  induction s with
  | nil => intro _ _ _; rfl
  | cons c cs ih =>
    intro n v h
    rw [atoiFastLoop] at h
    by_cases hc : isDigit c = true
    · rw [if_pos hc] at h
      simp only [List.all_cons, hc, Bool.true_and]
      exact ih _ _ h
    · rw [if_neg hc] at h
      exact Option.noConfusion h

theorem digitVal_le (c : Char) (h : isDigit c = true) : digitVal c ≤ 9 := by
  simp only [isDigit, Bool.and_eq_true, decide_eq_true_eq] at h
  unfold digitVal
  omega

theorem digitsFrom_lt (s : GoString) (hs : s.all isDigit = true) :
    ∀ n : Nat, digitsFrom n s < (n + 1) * 10 ^ s.length := by
  induction s with
  | nil => intro n; simp [digitsFrom]
  | cons c cs ih =>
    intro n
    simp only [List.all_cons, Bool.and_eq_true] at hs
    have h1 := ih hs.2 (n * 10 + digitVal c)
    have h2 := digitVal_le c hs.1
    rw [digitsFrom_cons, List.length_cons, pow_succ]
    calc digitsFrom (n * 10 + digitVal c) cs
        < (n * 10 + digitVal c + 1) * 10 ^ cs.length := h1
      _ ≤ ((n + 1) * 10) * 10 ^ cs.length := Nat.mul_le_mul_right _ (by omega)
      _ = (n + 1) * (10 ^ cs.length * 10) := by ring

theorem parseUintLoop_ok (s : GoString) :
    ∀ (n v : Nat), parseUintLoop s n = (v, none) →
      s.all isDigit = true ∧ v = digitsFrom n s := by
  induction s with
  | nil =>
    intro n v h
    simp only [parseUintLoop, Prod.mk.injEq, and_true] at h
    exact ⟨rfl, h.symm⟩
  | cons c cs ih =>
    intro n v h
    rw [parseUintLoop] at h
    by_cases hc : isDigit c = true
    · simp only [hc, Bool.not_true, Bool.false_eq_true, if_false] at h
      split at h
      · simp at h
      · split at h
        · simp at h
        · rename_i h1 h2
          have hmod : (n * 10 + digitVal c) % 2 ^ 64 = n * 10 + digitVal c := by
            have := digitVal_le c hc
            simp only [maxUint64] at h1
            exact Nat.mod_eq_of_lt (by omega)
          rw [hmod] at h
          obtain ⟨ha, hv⟩ := ih _ _ h
          exact ⟨by simp [hc, ha], by rw [digitsFrom_cons]; exact hv⟩
    · simp [hc] at h

theorem parseUintLoop_range (s : GoString) :
    ∀ (n v : Nat), parseUintLoop s n = (v, some NumErrKind.ErrRange) → v = maxUint64 := by
  induction s with
  | nil => intro n v h; simp [parseUintLoop] at h
  | cons c cs ih =>
    intro n v h
    rw [parseUintLoop] at h
    split at h
    · simp at h
    · split at h
      · simp only [Prod.mk.injEq, and_true] at h
        exact h.symm
      · simp only at h
        split at h
        · simp only [Prod.mk.injEq, and_true] at h
          exact h.symm
        · exact ih _ _ h

/-- What a successful `strconv.Atoi` says about the text after the optional sign. -/
theorem Atoi_ok_body (c : Char) (rest : GoString) (h : (Atoi (c :: rest)).2 = none) :
    isDecimal (if isSign c then rest else c :: rest) = true ∧
      digitsValue (if isSign c then rest else c :: rest) ≤ 2 ^ 63 ∧
      (c ≠ '-' → digitsValue (if isSign c then rest else c :: rest) < 2 ^ 63) := by
  generalize hs : (if isSign c then rest else c :: rest) = s at *
  have hlen : s.length ≤ (c :: rest).length := by
    rw [← hs]
    split <;> simp
  unfold Atoi at h
  split at h
  · rename_i hfast
    simp only [atoiFast, hs] at h
    split at h
    · simp at h
    · rename_i hne
      split at h
      · simp at h
      · rename_i n hloop
        have hall := atoiFastLoop_some s 0 n hloop
        have hlt := digitsFrom_lt s hall 0
        have hpow : 10 ^ s.length ≤ 10 ^ 18 := Nat.pow_le_pow_right (by decide) (by omega)
        have hv : digitsValue s < 2 ^ 63 := by
          unfold digitsValue
          omega
        refine ⟨?_, by omega, fun _ => hv⟩
        cases s with
        | nil => simp at hne
        | cons x xs => simpa [isDecimal] using hall
  · simp only [parseInt, hs, reduceCtorEq, if_false, List.head?_cons, Option.some.injEq] at h
    rcases hpu : parseUint s with ⟨un, e⟩
    rw [hpu] at h
    rcases e with _ | _ | _
    · simp only at h
      unfold parseUint at hpu
      split at hpu
      · simp at hpu
      · rename_i hne
        obtain ⟨hall, hv⟩ := parseUintLoop_ok s 0 un hpu
        have hdec : isDecimal s = true := by
          cases s with
          | nil => exact absurd rfl hne
          | cons x xs => simpa [isDecimal] using hall
        by_cases hneg : c = '-'
        · simp only [hneg, not_true_eq_false, false_and, if_false, true_and] at h
          split at h
          · simp at h
          · rename_i hle
            refine ⟨hdec, ?_, fun hc => absurd hneg hc⟩
            rw [digitsValue, ← hv]
            omega
        · simp only [hneg, not_false_eq_true, true_and, false_and, if_false] at h
          split at h
          · simp at h
          · rename_i hle
            have : digitsValue s < 2 ^ 63 := by
              rw [digitsValue, ← hv]
              omega
            exact ⟨hdec, by omega, fun _ => this⟩
    · simp at h
    · simp only at h
      have hmax : un = maxUint64 := by
        unfold parseUint at hpu
        split at hpu
        · simp at hpu
        · exact parseUintLoop_range s 0 un hpu
      subst hmax
      by_cases hneg : c = '-'
      · simp [hneg, maxUint64] at h
      · simp [hneg, maxUint64] at h

theorem Atoi_ok_isInteger (f : GoString) (h : (Atoi f).2 = none) : isInteger f = true := by
  cases f with
  | nil => simp [Atoi, parseInt] at h
  | cons c rest =>
    obtain ⟨hdec, hle, hlt⟩ := Atoi_ok_body c rest h
    unfold isInteger
    by_cases hm : c = '-'
    · subst hm
      simp only [isSign, show ('-' == '+') = false from by decide, Bool.false_or,
        show ('-' == '-') = true from by decide, if_true] at hdec hle
      simp only [if_true, hdec, Bool.true_and, decide_eq_true_eq]
      exact hle
    · by_cases hp : c = '+'
      · subst hp
        have hlt2 := hlt (by decide)
        simp only [isSign, show ('+' == '+') = true from by decide, Bool.true_or,
          if_true] at hdec hlt2
        simp only [hm, if_false, if_true, hdec, Bool.true_and, decide_eq_true_eq]
        exact hlt2
      · have hlt2 := hlt hm
        have hsign : isSign c = false := by simp [isSign, hm, hp]
        simp only [hsign, Bool.false_eq_true, if_false] at hdec hlt2
        simp only [hm, hp, if_false, hdec, Bool.true_and, decide_eq_true_eq]
        exact hlt2

theorem isInteger_chars (f : GoString) (h : isInteger f = true) :
    ∀ c ∈ f, isDigit c = true ∨ isSign c = true := by
  cases f with
  | nil => intro c hc; cases hc
  | cons x rest =>
    have hrest : ∀ ds : GoString, isDecimal ds = true → ∀ c ∈ ds, isDigit c = true := by
      intro ds hds c hc
      simp only [isDecimal, Bool.and_eq_true, List.all_eq_true] at hds
      exact hds.2 c hc
    intro c hc
    unfold isInteger at h
    by_cases hm : x = '-'
    · simp only [hm, if_true, Bool.and_eq_true] at h
      rcases List.mem_cons.mp hc with rfl | hc
      · right; rw [hm]; decide
      · exact Or.inl (hrest rest h.1 c hc)
    · by_cases hp : x = '+'
      · simp only [hp, show ¬ ('+' = '-') from by decide, if_false, if_true,
          Bool.and_eq_true] at h
        rcases List.mem_cons.mp hc with rfl | hc
        · right; rw [hp]; decide
        · exact Or.inl (hrest rest h.1 c hc)
      · simp only [hm, hp, if_false, Bool.and_eq_true] at h
        exact Or.inl (hrest _ h.1 c hc)

/-- A character that is neither a digit nor a sign does not occur in a field that
`strconv.Atoi` accepts. -/
theorem not_mem_of_Atoi_ok (f : GoString) (h : (Atoi f).2 = none) (c : Char)
    (hd : isDigit c = false) (hs : isSign c = false) : c ∉ f := by
  intro hc
  rcases isInteger_chars f (Atoi_ok_isInteger f h) c hc with h1 | h1
  · rw [h1] at hd; exact Bool.noConfusion hd
  · rw [h1] at hs; exact Bool.noConfusion hs

/-! ## Every run of parseDuration -/

theorem stringsIndex_ge (c : Char) (s : GoString) : -1 ≤ stringsIndex c s := by
  rcases stringsIndex_spec c s with ⟨h, _⟩ | ⟨pre, post, _, _, h⟩
  · rw [h]
  · rw [h]
    omega

/-- Slicing from a position before which the marker does not occur up to the
marker is within bounds. -/
theorem slice_to_marker (str : GoString) (c : Char) (a : Int) (ha0 : 0 ≤ a)
    (ha : c ∉ str.take a.toNat) (hi : stringsIndex c str ≠ -1) :
    a ≤ stringsIndex c str ∧ ∃ field, slice str a (stringsIndex c str) = Run.ret field ∧
      str.take (stringsIndex c str + 1).toNat = str.take a.toNat ++ field ++ [c] := by
  rcases stringsIndex_spec c str with ⟨h, _⟩ | ⟨pre, post, hstr, hpre, hidx⟩
  · exact absurd h hi
  · have hle : a.toNat ≤ pre.length := by
      by_contra hlt
      apply ha
      rw [hstr, List.take_append_eq_append_take, List.mem_append]
      right
      have : a.toNat - pre.length = (a.toNat - pre.length - 1) + 1 := by omega
      rw [this, List.take_succ_cons]
      exact List.mem_cons_self _ _
    have htake : str.take a.toNat = pre.take a.toNat := by
      rw [hstr, List.take_append_of_le_length hle]
    refine ⟨by rw [hidx]; omega, pre.drop a.toNat, ?_, ?_⟩
    · rw [hidx]
      apply slice_mid str (pre.take a.toNat) (pre.drop a.toNat) (c :: post)
      · rw [← List.append_assoc, List.take_append_drop, hstr]
      · rw [List.length_take]; omega
      · rw [List.length_take, List.length_drop]; omega
    · rw [htake, List.take_append_drop, hidx]
      have : ((pre.length : Int) + 1).toNat = pre.length + 1 := by omega
      rw [this, hstr, List.take_append_eq_append_take, List.take_of_length_le (by omega)]
      have : pre.length + 1 - pre.length = 1 := by omega
      rw [this]
      rfl

/-- A marker other than the one just read is absent up to that marker once the
field before it was accepted by `strconv.Atoi`. -/
theorem not_mem_after_field (pre field : GoString) (m c : Char)
    (hpre : c ∉ pre) (hok : (Atoi field).2 = none) (hd : isDigit c = false)
    (hs : isSign c = false) (hne : c ≠ m) : c ∉ pre ++ field ++ [m] := by
  simp only [List.mem_append, List.mem_singleton, not_or]
  exact ⟨⟨hpre, not_mem_of_Atoi_ok field hok c hd hs⟩, hne⟩

theorem parseHoursField_step (str : GoString) :
    ∃ rh, parseHoursField str (stringsIndex 'H' str) = Run.ret rh ∧
      (stringsIndex 'H' str ≠ -1 → ∃ field,
        str.take (stringsIndex 'H' str + 1).toNat = field ++ ['H'] ∧ rh = Atoi field) ∧
      (rh.2 = none → ∀ c, isDigit c = false → isSign c = false → c ≠ 'H' →
        c ∉ str.take (stringsIndex 'H' str + 1).toNat) := by
  by_cases hI : stringsIndex 'H' str = -1
  · refine ⟨(0, none), by rw [parseHoursField, if_neg (by simp [hI])], fun h => absurd hI h, ?_⟩
    intro _ c _ _ _
    simp [hI]
  · obtain ⟨_, field, hsl, htake⟩ :=
      slice_to_marker str 'H' 0 (le_refl 0) (by simp) hI
    refine ⟨Atoi field, by rw [parseHoursField, if_pos hI, hsl],
      fun _ => ⟨field, by simpa using htake, rfl⟩, ?_⟩
    intro hok c hd hs hne
    rw [htake]
    exact not_mem_after_field _ field 'H' c (by simp) hok hd hs hne

theorem parseMinutesField_step (str : GoString)
    (hinv : 'M' ∉ str.take (stringsIndex 'H' str + 1).toNat)
    (hinvS : 'S' ∉ str.take (stringsIndex 'H' str + 1).toNat) :
    ∃ rm, parseMinutesField str (stringsIndex 'H' str) (stringsIndex 'M' str) = Run.ret rm ∧
      (stringsIndex 'M' str ≠ -1 → stringsIndex 'H' str < stringsIndex 'M' str) ∧
      (stringsIndex 'M' str ≠ -1 → ∃ field,
        str.take (stringsIndex 'M' str + 1).toNat =
          str.take (stringsIndex 'H' str + 1).toNat ++ field ++ ['M'] ∧ rm = Atoi field) ∧
      (rm.2 = none →
        'S' ∉ str.take (secondsStart (stringsIndex 'H' str) (stringsIndex 'M' str)).toNat) := by
  have hge := stringsIndex_ge 'H' str
  by_cases mI : stringsIndex 'M' str = -1
  · refine ⟨(0, none), by rw [parseMinutesField, if_neg (by simp [mI])], fun h => absurd mI h,
      fun h => absurd mI h, ?_⟩
    intro _
    rw [secondsStart, if_neg (by simp [mI])]
    exact hinvS
  · obtain ⟨hle, field, hsl, htake⟩ :=
      slice_to_marker str 'M' (stringsIndex 'H' str + 1) (by omega) hinv mI
    refine ⟨Atoi field, by rw [parseMinutesField, if_pos mI, hsl], fun _ => by omega,
      fun _ => ⟨field, htake, rfl⟩, ?_⟩
    intro hok
    rw [secondsStart, if_pos mI, htake]
    exact not_mem_after_field _ field 'M' 'S' hinvS hok (by decide) (by decide) (by decide)

theorem parseSecondsField_step (str : GoString)
    (hinv : 'S' ∉ str.take (secondsStart (stringsIndex 'H' str) (stringsIndex 'M' str)).toNat) :
    ∃ sec, parseSecondsField str (stringsIndex 'H' str) (stringsIndex 'M' str)
        (stringsIndex 'S' str) = Run.ret sec ∧
      (stringsIndex 'S' str ≠ -1 →
        secondsStart (stringsIndex 'H' str) (stringsIndex 'M' str) ≤ stringsIndex 'S' str) := by
  have hgeH := stringsIndex_ge 'H' str
  have hgeM := stringsIndex_ge 'M' str
  by_cases sI : stringsIndex 'S' str = -1
  · exact ⟨0, by rw [parseSecondsField, if_neg (by simp [sI])], fun h => absurd sI h⟩
  · obtain ⟨hle, field, hsl, _⟩ :=
      slice_to_marker str 'S' _ (by unfold secondsStart; split <;> omega) hinv sI
    refine ⟨(Atoi field).1, ?_, fun _ => hle⟩
    rw [parseSecondsField, if_pos sI]
    by_cases mI : stringsIndex 'M' str = -1
    · rw [secondsStart, if_neg (by simp [mI])] at hsl
      rw [if_neg (by simp [mI])]
      by_cases hI : stringsIndex 'H' str = -1
      · rw [if_neg (by simp [hI])]
        rw [hI] at hsl
        simp only [Int.reduceNeg, neg_add_cancel] at hsl
        rw [hsl]
      · rw [if_pos hI, hsl]
    · rw [secondsStart, if_pos mI] at hsl
      rw [if_pos mI, hsl]

/-- Structure of every run of `parseDuration`: it returns, with a zero value when
it returns an error, and with the markers in order and the hour and minute
fields accepted when it returns none. -/
theorem parseDuration_structure (tok : GoString) :
    ∃ d e, parseDuration tok = Run.ret (d, e) ∧ (e ≠ none → d = 0) ∧
      (e = none → markersOrdered (stringsReplaceFirst ['P', 'T'] tok) ∧
        fieldsAccepted (stringsReplaceFirst ['P', 'T'] tok)) := by
  generalize hstr : stringsReplaceFirst ['P', 'T'] tok = str
  obtain ⟨⟨hv, he⟩, hrh, hfH, hinvH⟩ := parseHoursField_step str
  unfold parseDuration
  simp only [hstr, hrh]
  cases he with
  | some err => exact ⟨0, some err, rfl, fun _ => rfl, fun h => Option.noConfusion h⟩
  | none =>
    have hM := hinvH rfl 'M' (by decide) (by decide) (by decide)
    have hS := hinvH rfl 'S' (by decide) (by decide) (by decide)
    obtain ⟨⟨mv, me⟩, hrm, hordM, hfM, hinvM⟩ := parseMinutesField_step str hM hS
    simp only [hrm]
    cases me with
    | some err => exact ⟨0, some err, rfl, fun _ => rfl, fun h => Option.noConfusion h⟩
    | none =>
      obtain ⟨sec, hrs, hordS⟩ := parseSecondsField_step str (hinvM rfl)
      simp only [hrs]
      refine ⟨_, none, rfl, fun h => absurd rfl h, fun _ => ⟨?_, ?_⟩⟩
      · have hgeH := stringsIndex_ge 'H' str
        have hgeM := stringsIndex_ge 'M' str
        refine ⟨fun _ h => hordM h, ?_, ?_⟩
        · intro hH hSne
          have h1 := hordS hSne
          unfold secondsStart at h1
          split at h1
          · rename_i hMne
            have := hordM hMne
            omega
          · omega
        · intro hMne hSne
          have h1 := hordS hSne
          rw [secondsStart, if_pos hMne] at h1
          omega
      · refine ⟨fun h => ?_, fun h => ?_⟩
        · obtain ⟨field, h1, h2⟩ := hfH h
          exact ⟨field, h1, by rw [← h2]⟩
        · obtain ⟨field, h1, h2⟩ := hfM h
          exact ⟨field, h1, by rw [← h2]⟩

/-! ## The hour and minute fields of an accepted token -/

theorem take_index_succ (c : Char) (pre post : GoString) (h : c ∉ pre) :
    (pre ++ c :: post).take (stringsIndex c (pre ++ c :: post) + 1).toNat = pre ++ [c] := by
  rw [stringsIndex_append_cons c pre post h]
  have : ((pre.length : Int) + 1).toNat = pre.length + 1 := by omega
  rw [this, List.take_append_eq_append_take, List.take_of_length_le (by omega)]
  have : pre.length + 1 - pre.length = 1 := by omega
  rw [this]
  rfl

theorem stringsIndex_ne_of_split (c : Char) (pre post : GoString) (h : c ∉ pre) :
    stringsIndex c (pre ++ c :: post) ≠ -1 := by
  rw [stringsIndex_append_cons c pre post h]
  omega

theorem hourField_accepted (str f : GoString) (hf : IsHourField str f)
    (hacc : fieldsAccepted str) : (Atoi f).2 = none := by
  obtain ⟨post, hstr, hnot⟩ := hf
  subst hstr
  obtain ⟨field, htake, hok⟩ := hacc.1 (stringsIndex_ne_of_split 'H' f post hnot)
  rw [take_index_succ 'H' f post hnot] at htake
  rw [List.append_left_inj] at htake
  rw [htake]
  exact hok

theorem minuteField_accepted (str f : GoString) (hf : IsMinuteField str f)
    (hord : markersOrdered str) (hacc : fieldsAccepted str) : (Atoi f).2 = none := by
  obtain ⟨pre, post, hstr, hnot, hpre⟩ := hf
  have hstr2 : str = (pre ++ f) ++ 'M' :: post := by rw [hstr]
  have hMne : stringsIndex 'M' str ≠ -1 := by
    rw [hstr2]; exact stringsIndex_ne_of_split 'M' _ post hnot
  have hMidx : stringsIndex 'M' str = ((pre ++ f).length : Int) := by
    rw [hstr2]; exact stringsIndex_append_cons 'M' _ post hnot
  have hMtake : str.take (stringsIndex 'M' str + 1).toNat = pre ++ f ++ ['M'] := by
    rw [hstr2]; exact take_index_succ 'M' _ post hnot
  obtain ⟨field, htake, hok⟩ := hacc.2 hMne
  rw [hMtake] at htake
  have hH : str.take (stringsIndex 'H' str + 1).toNat = pre := by
    rcases hpre with ⟨rfl, hHf⟩ | ⟨h, rfl, hHh⟩
    · by_cases hI : stringsIndex 'H' str = -1
      · simp [hI]
      · exfalso
        obtain ⟨fh, hfh, _⟩ := hacc.1 hI
        have hlt := hord.1 hI hMne
        have hge := stringsIndex_ge 'H' str
        rw [hMidx] at hlt
        simp only [List.nil_append] at hlt hstr2
        have hn : (stringsIndex 'H' str + 1).toNat ≤ f.length := by omega
        generalize (stringsIndex 'H' str + 1).toNat = n at hn hfh
        have hmem : 'H' ∈ f.take n := by
          rw [← List.take_append_of_le_length hn, ← hstr2, hfh]
          simp
        exact hHf (List.mem_of_mem_take hmem)
    · have hs3 : str = h ++ 'H' :: (f ++ 'M' :: post) := by
        rw [hstr]; simp
      rw [hs3]
      exact take_index_succ 'H' h _ hHh
  rw [hH, List.append_left_inj, List.append_right_inj] at htake
  rw [htake]
  exact hok

/-! ## Inputs without `PT` -/

theorem startsWith_isPrefix (p s : GoString) (h : startsWith p s = true) : List.IsPrefix p s := by
  induction p generalizing s with
  | nil => exact List.nil_prefix
  | cons a p ih =>
    cases s with
    | nil => simp [startsWith] at h
    | cons c cs =>
      simp only [startsWith, Bool.and_eq_true, beq_iff_eq] at h
      rw [h.1]
      exact (List.cons_prefix_cons).mpr ⟨rfl, ih cs h.2⟩

theorem stringsReplaceFirst_of_not_infix (p s : GoString) (h : ¬ List.IsInfix p s) :
    stringsReplaceFirst p s = s := by
  induction s with
  | nil => rfl
  | cons c cs ih =>
    rw [stringsReplaceFirst, if_neg, ih]
    · intro hin
      exact h (hin.trans (List.suffix_cons c cs).isInfix)
    · intro hsw
      exact h (startsWith_isPrefix p _ hsw).isInfix

/-- The first occurrence of `PT` is removed, wherever it is. -/
theorem stringsReplaceFirst_first_PT (pre post : GoString)
    (hfirst : ¬ List.IsInfix ['P', 'T'] (pre ++ ['P'])) :
    stringsReplaceFirst ['P', 'T'] (pre ++ ['P', 'T'] ++ post) = pre ++ post := by
  induction pre with
  | nil => exact stringsReplaceFirst_PT post
  | cons c cs ih =>
    have hcs : ¬ List.IsInfix ['P', 'T'] (cs ++ ['P']) := fun hin =>
      hfirst (hin.trans (List.suffix_cons c _).isInfix)
    have hsw : ¬ startsWith ['P', 'T'] (c :: (cs ++ ['P', 'T'] ++ post)) = true := by
      intro hsw
      cases cs with
      | nil => simp [startsWith] at hsw
      | cons d ds =>
        simp only [List.cons_append, startsWith, Bool.and_eq_true, beq_iff_eq, and_true] at hsw
        apply hfirst
        rw [← hsw.1, ← hsw.2]
        exact ⟨[], ds ++ ['P'], rfl⟩
    rw [List.cons_append, List.cons_append, stringsReplaceFirst, if_neg hsw, ih hcs]
    rfl

/-! ## Claims about totality, malformed fields and the literal `PT` -/

/-- C10: `parseDuration` returns a duration or an error for every input and never
panics, that is, every slice expression it evaluates has bounds
`0 <= a <= b <= len` (see `slice_panic_iff`); and it returns an error whenever a
marker occurs before a marker that should precede it. -/
theorem parseDuration_never_panics (tok : GoString) :
    (∃ d e, parseDuration tok = Run.ret (d, e)) ∧
      (¬ markersOrdered (stringsReplaceFirst ['P', 'T'] tok) →
        ∃ err, parseDuration tok = Run.ret (0, some err)) := by
  obtain ⟨d, e, hret, hzero, hord⟩ := parseDuration_structure tok
  refine ⟨⟨d, e, hret⟩, fun hinv => ?_⟩
  cases e with
  | none => exact absurd (hord rfl).1 hinv
  | some err =>
    rw [hzero (by simp)] at hret
    exact ⟨err, hret⟩

/-- Witness of C10: `PT5S3M` and `PT3M1H` have their markers out of order and are
rejected by the parse of an earlier field. -/
theorem parseDuration_never_panics_witness :
    (∃ err, parseDuration "PT5S3M".toList = Run.ret (0, some err)) ∧
      (∃ err, parseDuration "PT3M1H".toList = Run.ret (0, some err)) :=
  ⟨(parseDuration_never_panics "PT5S3M".toList).2 (by decide),
    (parseDuration_never_panics "PT3M1H".toList).2 (by decide)⟩

/-- C2 as amended: when the hour field or the minute field of a token is not the
decimal form of an integer that fits a 64-bit `int` (an optional sign, then at
least one digit), `parseDuration` returns an error and a zero duration. -/
theorem parseDuration_rejects_bad_hour_or_minute (tok f : GoString)
    (hfield : IsHourField (stringsReplaceFirst ['P', 'T'] tok) f ∨
      IsMinuteField (stringsReplaceFirst ['P', 'T'] tok) f)
    (hbad : isInteger f = false) :
    ∃ err, parseDuration tok = Run.ret (0, some err) := by
  obtain ⟨d, e, hret, hzero, hok⟩ := parseDuration_structure tok
  cases e with
  | some err =>
    rw [hzero (by simp)] at hret
    exact ⟨err, hret⟩
  | none =>
    exfalso
    obtain ⟨hord, hacc⟩ := hok rfl
    have hAtoi : (Atoi f).2 = none := by
      rcases hfield with hf | hf
      · exact hourField_accepted _ f hf hacc
      · exact minuteField_accepted _ f hf hord hacc
    rw [Atoi_ok_isInteger f hAtoi] at hbad
    exact Bool.noConfusion hbad

/-- Witness of C2 as amended: the minute field `x` of `PTxM` and the hour field
`1x` of `PT1xH5M` are rejected. -/
theorem parseDuration_rejects_bad_hour_or_minute_witness :
    (∃ err, parseDuration "PTxM".toList = Run.ret (0, some err)) ∧
      (∃ err, parseDuration "PT1xH5M".toList = Run.ret (0, some err)) :=
  ⟨parseDuration_rejects_bad_hour_or_minute "PTxM".toList "x".toList
      (Or.inr ⟨[], [], by decide, by decide, Or.inl ⟨rfl, by decide⟩⟩) (by decide),
    parseDuration_rejects_bad_hour_or_minute "PT1xH5M".toList "1x".toList
      (Or.inl ⟨"5M".toList, by decide, by decide⟩) (by decide)⟩

/-- Counterexample to C2 as stated: a negative minute field and a non-numeric
seconds field are both accepted. -/
theorem parseDuration_accepts_negative_and_bad_seconds :
    parseDuration "PT-5M".toList = Run.ret (-300 * Second, none) ∧
      parseDuration "PTxS".toList = Run.ret (0, none) := by
  decide

/-- Counterexample to C7 as stated: non-empty inputs that do not begin with `PT`
are parsed without error. -/
theorem parseDuration_without_PT_accepted :
    parseDuration "4M13S".toList = Run.ret (253 * Second, none) ∧
      parseDuration "1HPT2M".toList = Run.ret (3720 * Second, none) := by
  decide

/-- C7 as amended: the prefix is not required.  The first occurrence of `PT`,
wherever it is, is removed and the rest is parsed: an input whose first `PT`
follows `pre` is parsed exactly like `PT` followed by the text around it, an
input that does not contain `PT` is parsed exactly like the same input with `PT`
put in front, and the empty input gives a zero duration and no error. -/
theorem parseDuration_PT_optional :
    (∀ pre post : GoString, ¬ List.IsInfix ['P', 'T'] (pre ++ ['P']) →
        parseDuration (pre ++ ['P', 'T'] ++ post) =
          parseDuration (['P', 'T'] ++ (pre ++ post))) ∧
      (∀ s : GoString, ¬ List.IsInfix ['P', 'T'] s →
        parseDuration s = parseDuration (['P', 'T'] ++ s)) ∧
      parseDuration [] = Run.ret (0, none) := by
  refine ⟨?_, ?_, by decide⟩
  · intro pre post hfirst
    have h1 := stringsReplaceFirst_first_PT pre post hfirst
    have h2 : stringsReplaceFirst ['P', 'T'] (['P', 'T'] ++ (pre ++ post)) = pre ++ post :=
      stringsReplaceFirst_PT _
    unfold parseDuration
    rw [h1, h2]
  · intro s hno
    have h1 := stringsReplaceFirst_of_not_infix ['P', 'T'] s hno
    have h2 : stringsReplaceFirst ['P', 'T'] (['P', 'T'] ++ s) = s := stringsReplaceFirst_PT s
    unfold parseDuration
    rw [h1, h2]

/-- Witness of C7 as amended: `1HPT2M` is parsed like `PT1H2M`, and `4M13S` like
`PT4M13S`. -/
theorem parseDuration_PT_optional_witness :
    parseDuration "1HPT2M".toList = parseDuration "PT1H2M".toList ∧
      parseDuration "4M13S".toList = parseDuration "PT4M13S".toList :=
  ⟨parseDuration_PT_optional.1 "1H".toList "2M".toList (by decide),
    parseDuration_PT_optional.2.1 "4M13S".toList (by decide)⟩

/-! ## extractPlaylistID -/

theorem startsWith_append (p rest : GoString) : startsWith p (p ++ rest) = true := by
  induction p with
  | nil => rfl
  | cons a p ih => simp [startsWith, ih]

theorem takeWhile_run (p : Char → Bool) (id post : GoString) (hid : id.all p = true)
    (hpost : ∀ c, post.head? = some c → p c = false) : (id ++ post).takeWhile p = id := by
  induction id with
  | nil =>
    cases post with
    | nil => rfl
    | cons c cs => simp [List.takeWhile, hpost c rfl]
  | cons x xs ih =>
    simp only [List.all_cons, Bool.and_eq_true] at hid
    simp [List.takeWhile, hid.1, ih hid.2]

theorem matchListAt_run (id post : GoString) (hne : id ≠ []) (hid : id.all isIDChar = true)
    (hpost : ∀ c, post.head? = some c → isIDChar c = false) :
    matchListAt (listEq ++ id ++ post) = some [listEq ++ id, id] := by
  have hsw : startsWith ['l', 'i', 's', 't', '='] (listEq ++ id ++ post) = true := by
    rw [List.append_assoc]
    exact startsWith_append listEq _
  have hdrop : (listEq ++ id ++ post).drop 5 = id ++ post := by
    simp [listEq]
  rw [matchListAt, if_pos hsw]
  simp only [hdrop, takeWhile_run isIDChar id post hid hpost, if_neg hne]
  rfl

theorem matchListAt_some (s : GoString) (m : List GoString) (h : matchListAt s = some m) :
    OccursAfter s [] ∧ m.length = 2 := by
  unfold matchListAt at h
  split at h
  · rename_i hsw
    obtain ⟨t, ht⟩ := startsWith_isPrefix _ s hsw
    simp only at h
    split at h
    · exact Option.noConfusion h
    · rename_i hne
      have hdrop : s.drop 5 = t := by rw [← ht]; rfl
      rw [hdrop] at hne
      cases t with
      | nil => exact absurd rfl hne
      | cons c post =>
        have hc : isIDChar c = true := by
          by_contra hc
          simp [List.takeWhile, hc] at hne
        refine ⟨⟨c, post, ?_, hc⟩, ?_⟩
        · rw [← ht]; rfl
        · simp only [Option.some.injEq] at h
          rw [← h]
          rfl
  · exact Option.noConfusion h

theorem matchListAt_of_occurs (s : GoString) (h : OccursAfter s []) :
    ∃ m, matchListAt s = some m := by
  obtain ⟨c, post, hs, hc⟩ := h
  have hsw : startsWith ['l', 'i', 's', 't', '='] s = true := by
    rw [hs, List.nil_append]
    exact startsWith_append listEq _
  have hdrop : s.drop 5 = c :: post := by
    rw [hs]; rfl
  rw [matchListAt, if_pos hsw]
  simp only [hdrop, List.takeWhile, hc]
  exact ⟨_, if_neg (List.cons_ne_nil _ _)⟩

/-- The leftmost match: either no suffix of the url matches and the result is
empty, or the result is the match at the first suffix that matches. -/
theorem findStringSubmatch_spec (url : GoString) :
    (findStringSubmatch url = [] ∧ ∀ a t, url = a ++ t → matchListAt t = none) ∨
      ∃ a t m, url = a ++ t ∧ matchListAt t = some m ∧ findStringSubmatch url = m ∧
        ∀ a1 t1, url = a1 ++ t1 → a1.length < a.length → matchListAt t1 = none := by
  induction url with
  | nil =>
    left
    refine ⟨rfl, ?_⟩
    intro a t h
    have ht : t = [] := (List.append_eq_nil.mp h.symm).2
    rw [ht]
    rfl
  | cons c cs ih =>
    cases hm : matchListAt (c :: cs) with
    | some m =>
      right
      refine ⟨[], c :: cs, m, rfl, hm, by simp [findStringSubmatch, hm], ?_⟩
      intro a1 t1 _ hlt
      simp at hlt
    | none =>
      have hfind : findStringSubmatch (c :: cs) = findStringSubmatch cs := by
        simp [findStringSubmatch, hm]
      rcases ih with ⟨hnil, hall⟩ | ⟨a, t, m, hsplit, hmt, hres, hmin⟩
      · left
        refine ⟨by rw [hfind, hnil], ?_⟩
        intro a t h
        cases a with
        | nil =>
          rw [List.nil_append] at h
          rw [← h]
          exact hm
        | cons x a1 =>
          rw [List.cons_append, List.cons.injEq] at h
          exact hall a1 t h.2
      · right
        refine ⟨c :: a, t, m, by rw [hsplit]; rfl, hmt, by rw [hfind, hres], ?_⟩
        intro a1 t1 h hlt
        cases a1 with
        | nil =>
          rw [List.nil_append] at h
          rw [← h]
          exact hm
        | cons x a2 =>
          rw [List.cons_append, List.cons.injEq] at h
          simp only [List.length_cons, Nat.add_lt_add_iff_right] at hlt
          exact hmin a2 t1 h.2 hlt

theorem occursAfter_suffix (pre t : GoString) (h : OccursAfter (pre ++ t) pre) :
    OccursAfter t [] := by
  obtain ⟨c, post, hs, hc⟩ := h
  rw [List.append_assoc, List.append_cancel_left_eq] at hs
  exact ⟨c, post, by rw [hs]; rfl, hc⟩

/-- C3: `extractPlaylistID` returns an error exactly when the url has no
occurrence of `list=` immediately followed by a character of the class
`[A-Za-z0-9_-]`; and when the url is `pre ++ "list=" ++ id ++ post` with `id` a
non-empty run of class characters, `post` not starting with a class character
and no such occurrence starting earlier, it returns exactly `id` and no error. -/
theorem extractPlaylistID_spec (url : GoString) :
    (extractPlaylistID url = ([], some Error.invalidPlaylistURL) ↔
        ¬ ∃ pre, OccursAfter url pre) ∧
      ((extractPlaylistID url).2 = none ↔ ∃ pre, OccursAfter url pre) ∧
      ∀ pre id post : GoString, url = pre ++ listEq ++ id ++ post → id ≠ [] →
        id.all isIDChar = true → (∀ c, post.head? = some c → isIDChar c = false) →
        (∀ a, OccursAfter url a → pre.length ≤ a.length) →
        extractPlaylistID url = (id, none) := by
  rcases findStringSubmatch_spec url with ⟨hnil, hall⟩ | ⟨a, t, m, hsplit, hmt, hres, hmin⟩
  · have hno : ¬ ∃ pre, OccursAfter url pre := by
      rintro ⟨pre, c, post, hs, hc⟩
      have hocc : OccursAfter (listEq ++ c :: post) [] := ⟨c, post, rfl, hc⟩
      obtain ⟨m, hm⟩ := matchListAt_of_occurs _ hocc
      rw [hall pre (listEq ++ c :: post) (by rw [hs, List.append_assoc])] at hm
      exact Option.noConfusion hm
    have herr : extractPlaylistID url = ([], some Error.invalidPlaylistURL) := by
      simp [extractPlaylistID, hnil]
    refine ⟨⟨fun _ => hno, fun _ => herr⟩,
      ⟨fun h => by rw [herr] at h; exact Option.noConfusion h, fun h => absurd h hno⟩, ?_⟩
    intro pre id post hs hne hid hpost _
    exfalso
    cases id with
    | nil => exact hne rfl
    | cons c cs =>
      have hm := hall pre (listEq ++ (c :: cs) ++ post) (by rw [hs]; simp)
      rw [matchListAt_run (c :: cs) post hne hid hpost] at hm
      exact Option.noConfusion hm
  · obtain ⟨hocc, hlen⟩ := matchListAt_some t m hmt
    have hoccA : OccursAfter url a := by
      obtain ⟨c, post, hs, hc⟩ := hocc
      exact ⟨c, post, by rw [hsplit, hs]; simp, hc⟩
    have hok : (extractPlaylistID url).2 = none := by
      simp [extractPlaylistID, hres, hlen]
    refine ⟨⟨fun h => by rw [h] at hok; exact Option.noConfusion hok,
      fun h => absurd ⟨a, hoccA⟩ h⟩, ⟨fun _ => ⟨a, hoccA⟩, fun _ => hok⟩, ?_⟩
    intro pre id post hs hne hid hpost hfirst
    have hrun := matchListAt_run id post hne hid hpost
    have hle := hfirst a hoccA
    have hge : a.length ≤ pre.length := by
      by_contra hlt
      have := hmin pre (listEq ++ id ++ post) (by rw [hs]; simp) (by omega)
      rw [hrun] at this
      exact Option.noConfusion this
    have heq : a.length = pre.length := by omega
    have hurl : a ++ t = pre ++ (listEq ++ id ++ post) := by
      rw [← hsplit, hs]; simp
    obtain ⟨_, ht⟩ := List.append_inj hurl heq
    rw [ht, hrun] at hmt
    simp only [Option.some.injEq] at hmt
    simp [extractPlaylistID, hres, ← hmt]

theorem first_occurrence_of_check (url pre : GoString)
    (h : ∀ n, n < pre.length → startsWith listEq (url.drop n) = false) :
    ∀ a, OccursAfter url a → pre.length ≤ a.length := by
  intro a hocc
  by_contra hlt
  obtain ⟨c, post, hs, _⟩ := hocc
  have hfalse := h a.length (by omega)
  rw [hs, List.append_assoc, List.drop_left, startsWith_append] at hfalse
  exact Bool.noConfusion hfalse

/-- Witness of C3: the identifier of a playlist url with parameters before and
after `list=`. -/
theorem extractPlaylistID_spec_witness :
    extractPlaylistID "https://youtu.be/playlist?v=1&list=PLx-9_&index=2".toList =
      ("PLx-9_".toList, none) :=
  (extractPlaylistID_spec "https://youtu.be/playlist?v=1&list=PLx-9_&index=2".toList).2.2
    "https://youtu.be/playlist?v=1&".toList "PLx-9_".toList "&index=2".toList
    (by decide) (by decide) (by decide)
    (fun c hc => by
      have h : c = '&' := (Option.some.inj hc).symm
      rw [h]
      decide)
    (first_occurrence_of_check _ _ (by decide))

/-! ## Aggregation over pages -/

theorem wrap64_range (x : Int) : -(2 ^ 63) ≤ wrap64 x ∧ wrap64 x < 2 ^ 63 := by
  unfold wrap64
  omega

theorem wrap64_add_wrap64 (a b : Int) : wrap64 (a + wrap64 b) = wrap64 (a + b) := by
  unfold wrap64
  omega

theorem wrap64_wrap64_add (a b : Int) : wrap64 (wrap64 a + b) = wrap64 (a + b) := by
  unfold wrap64
  omega

theorem getVideoDuration_resolves (videos : GoString → Fetch VideoDurationResponse)
    (dur : GoString → Int) (id : GoString) (h : Resolves videos dur id) :
    getVideoDuration videos id = Run.ret (dur id, none) := by
  obtain ⟨tok, more, hv, hp⟩ := h
  simp only [getVideoDuration, hv, hp]

theorem getVideoDuration_fails (videos : GoString → Fetch VideoDurationResponse)
    (id : GoString) (err : Error) (h : ItemFails videos id err) :
    getVideoDuration videos id = Run.ret (0, some err) := by
  rcases h with hv | ⟨hv, rfl⟩ | ⟨tok, more, d, hv, hp⟩
  · simp only [getVideoDuration, hv]
  · simp only [getVideoDuration, hv]
  · simp only [getVideoDuration, hv, hp]

/-- The loop of `getVideosDuration` over items that resolve, followed by any
remaining items. -/
theorem getVideosDurationLoop_good (videos : GoString → Fetch VideoDurationResponse)
    (dur : GoString → Int) (good rest : List GoString)
    (hgood : ∀ id ∈ good, Resolves videos dur id) :
    ∀ (total : Int) (trace : List Request),
      getVideosDurationLoop videos (good ++ rest) (wrap64 total) trace =
        getVideosDurationLoop videos rest (wrap64 (total + (good.map dur).sum))
          (trace ++ good.map Request.videos) := by
  induction good with
  | nil => intro total trace; simp
  | cons id ids ih =>
    intro total trace
    have hid := getVideoDuration_resolves videos dur id (hgood id (List.mem_cons_self _ _))
    have hrest := ih (fun x hx => hgood x (List.mem_cons_of_mem _ hx))
    rw [List.cons_append, getVideosDurationLoop]
    simp only [hid]
    rw [wrap64_wrap64_add, hrest]
    simp [add_assoc]

theorem getVideosDuration_good (videos : GoString → Fetch VideoDurationResponse)
    (dur : GoString → Int) (ids : List GoString) (hgood : ∀ id ∈ ids, Resolves videos dur id) :
    getVideosDuration videos ids =
      (Run.ret (wrap64 ((ids.map dur).sum), none), ids.map Request.videos) := by
  have h := getVideosDurationLoop_good videos dur ids [] hgood 0 []
  have h0 : wrap64 0 = 0 := by decide
  rw [h0, List.append_nil] at h
  rw [getVideosDuration, h]
  simp [getVideosDurationLoop]

theorem getVideosDuration_fails (videos : GoString → Fetch VideoDurationResponse)
    (dur : GoString → Int) (good : List GoString) (bad : GoString) (rest : List GoString)
    (err : Error) (hgood : ∀ id ∈ good, Resolves videos dur id)
    (hbad : ItemFails videos bad err) :
    getVideosDuration videos (good ++ bad :: rest) =
      (Run.ret (0, some err), (good ++ [bad]).map Request.videos) := by
  have h := getVideosDurationLoop_good videos dur good (bad :: rest) hgood 0 []
  have h0 : wrap64 0 = 0 := by decide
  rw [h0] at h
  rw [getVideosDuration, h, getVideosDurationLoop]
  simp only [getVideoDuration_fails videos bad err hbad]
  simp

/-- The loop of `getPlaylistDetails` over pages whose items resolve and whose
continuation token is not empty, followed by any remaining responses. -/
theorem getPlaylistDetailsLoop_good (videos : GoString → Fetch VideoDurationResponse)
    (dur : GoString → Int) (earlier : List PlaylistItemsResponse)
    (rest : List (Fetch PlaylistItemsResponse))
    (hmore : ∀ p ∈ earlier, p.NextPageToken ≠ [])
    (hres : ∀ p ∈ earlier, ∀ id ∈ p.Items, Resolves videos dur id) :
    ∀ (token : GoString) (count total : Int) (trace : List Request),
      getPlaylistDetailsLoop videos (earlier.map Except.ok ++ rest) token count
          (wrap64 total) trace =
        getPlaylistDetailsLoop videos rest (tokenAfter token earlier)
          (count + itemCount earlier) (wrap64 (total + durationSum dur earlier))
          (trace ++ expectedTrace token earlier) := by
  induction earlier with
  | nil => intro token count total trace; simp [tokenAfter, itemCount, durationSum, expectedTrace]
  | cons p ps ih =>
    intro token count total trace
    have hp := getVideosDuration_good videos dur p.Items (hres p (List.mem_cons_self _ _))
    have hrest := ih (fun q hq => hmore q (List.mem_cons_of_mem _ hq))
      (fun q hq => hres q (List.mem_cons_of_mem _ hq))
    rw [List.map_cons, List.cons_append, getPlaylistDetailsLoop]
    simp only [hp]
    rw [if_neg (hmore p (List.mem_cons_self _ _)), wrap64_wrap64_add, wrap64_add_wrap64, hrest]
    simp [tokenAfter, itemCount, durationSum, expectedTrace, add_assoc]

/-- The run of `getPlaylistDetails` over pages that resolve, the last of which has
an empty continuation token: the total is the sum of the durations reduced to 64
bits. -/
theorem getPlaylistDetails_pages (videos : GoString → Fetch VideoDurationResponse)
    (dur : GoString → Int) (earlier : List PlaylistItemsResponse) (last : PlaylistItemsResponse)
    (later : List (Fetch PlaylistItemsResponse))
    (hmore : ∀ p ∈ earlier, p.NextPageToken ≠ [])
    (hlast : last.NextPageToken = [])
    (hres : ∀ p ∈ earlier ++ [last], ∀ id ∈ p.Items, Resolves videos dur id) :
    getPlaylistDetails videos ((earlier ++ [last]).map Except.ok ++ later) =
      (Run.ret (itemCount (earlier ++ [last]), wrap64 (durationSum dur (earlier ++ [last])),
        none), expectedTrace [] (earlier ++ [last])) := by
  have hpre := getPlaylistDetailsLoop_good videos dur earlier (Except.ok last :: later) hmore
    (fun p hp => hres p (List.mem_append_left _ hp)) [] 0 0 []
  have hp := getVideosDuration_good videos dur last.Items
    (hres last (List.mem_append_right _ (List.mem_singleton_self _)))
  have h0 : wrap64 0 = 0 := by decide
  rw [h0] at hpre
  have hsplit : (earlier ++ [last]).map Except.ok ++ later =
      earlier.map Except.ok ++ (Except.ok last :: later) := by simp
  have hcount : itemCount (earlier ++ [last]) = itemCount earlier + (last.Items.length : Int) := by
    simp [itemCount]
  have hsum : durationSum dur (earlier ++ [last]) =
      durationSum dur earlier + (last.Items.map dur).sum := by
    simp [durationSum]
  have htrace : ∀ (ps : List PlaylistItemsResponse) (token : GoString),
      expectedTrace token (ps ++ [last]) =
        expectedTrace token ps ++
          (Request.playlistItems (tokenAfter token ps) :: last.Items.map Request.videos) := by
    intro ps
    induction ps with
    | nil => intro token; simp [expectedTrace, tokenAfter]
    | cons q qs ih => intro token; simp [expectedTrace, tokenAfter, ih]
  rw [getPlaylistDetails, hsplit, hpre, getPlaylistDetailsLoop]
  simp only [hp]
  rw [if_pos hlast, wrap64_wrap64_add, wrap64_add_wrap64, hcount, hsum, htrace]
  simp [add_assoc]

/-- C5 as amended: when the pages up to the first one with an empty continuation
token all resolve and the sum of their parsed durations lies in the signed
64-bit range of `time.Duration`, `getPlaylistDetails` returns no error, the
number of items of those pages and exactly that sum; it requests those pages and
their items and nothing after them. -/
theorem getPlaylistDetails_aggregates (videos : GoString → Fetch VideoDurationResponse)
    (dur : GoString → Int) (earlier : List PlaylistItemsResponse) (last : PlaylistItemsResponse)
    (later : List (Fetch PlaylistItemsResponse))
    (hmore : ∀ p ∈ earlier, p.NextPageToken ≠ [])
    (hlast : last.NextPageToken = [])
    (hres : ∀ p ∈ earlier ++ [last], ∀ id ∈ p.Items, Resolves videos dur id)
    (hlo : -(2 ^ 63) ≤ durationSum dur (earlier ++ [last]))
    (hhi : durationSum dur (earlier ++ [last]) < 2 ^ 63) :
    getPlaylistDetails videos ((earlier ++ [last]).map Except.ok ++ later) =
      (Run.ret (itemCount (earlier ++ [last]), durationSum dur (earlier ++ [last]), none),
        expectedTrace [] (earlier ++ [last])) := by
  have h := getPlaylistDetails_pages videos dur earlier last later hmore hlast hres
  rw [wrap64_of_range _ hlo hhi] at h
  exact h

/-- Counterexample to C5 as stated: two items of 2562047 hours each resolve, their
durations sum to 18446738400000000000 ns, and the total returned is
-5673709551616 ns. -/
theorem getPlaylistDetails_total_overflows :
    longPage.NextPageToken = [] ∧
      parseDuration "PT2562047H".toList = Run.ret (longDur ['c'], none) ∧
      (getPlaylistDetails longVideos [Except.ok longPage]).1 =
        Run.ret (2, -5673709551616, none) ∧
      durationSum longDur [longPage] = 18446738400000000000 := by
  decide

/-! ## The sample catalog -/

theorem sample_resolves_a : Resolves sampleVideos sampleDur ['a'] :=
  ⟨"PT3M20S".toList, [], rfl, by decide⟩

theorem sample_resolves_b : Resolves sampleVideos sampleDur ['b'] :=
  ⟨"PT5M".toList, [], rfl, by decide⟩

theorem samplePage1_resolves : ∀ p ∈ [samplePage1], ∀ id ∈ p.Items,
    Resolves sampleVideos sampleDur id := by
  intro p hp id hid
  rw [List.mem_singleton.mp hp] at hid
  rw [List.eq_of_mem_replicate hid]
  exact sample_resolves_a

theorem samplePages_resolve : ∀ p ∈ [samplePage1] ++ [samplePage2], ∀ id ∈ p.Items,
    Resolves sampleVideos sampleDur id := by
  intro p hp id hid
  rcases List.mem_append.mp hp with h | h
  · exact samplePage1_resolves p h id hid
  · rw [List.mem_singleton.mp h] at hid
    rw [List.eq_of_mem_replicate hid]
    exact sample_resolves_b

/-- Witness of C5 as amended: 50 items summing to 10,000 s on the first page and
3 items summing to 900 s on the second give count 53 and total 10,900 s, and
the response after the second page is not requested. -/
theorem getPlaylistDetails_aggregates_witness :
    getPlaylistDetails sampleVideos
        (([samplePage1] ++ [samplePage2]).map Except.ok ++
          [Except.error (Error.fetchFailed [])]) =
      (Run.ret (53, 10900 * Second, none),
        expectedTrace [] ([samplePage1] ++ [samplePage2])) := by
  have h := getPlaylistDetails_aggregates sampleVideos sampleDur [samplePage1] samplePage2
    [Except.error (Error.fetchFailed [])] (by decide) rfl samplePages_resolve (by decide)
    (by decide)
  have hcount : itemCount ([samplePage1] ++ [samplePage2]) = 53 := by decide
  have hsum : durationSum sampleDur ([samplePage1] ++ [samplePage2]) = 10900 * Second := by
    decide
  rw [hcount, hsum] at h
  exact h

/-! ## Failure of the aggregation -/

/-- C9: when the pages before the failing response resolve and that response
fails with `err` — its fetch fails, or one of its items has no record, a
rejected duration token or a failed fetch — `getPlaylistDetails` returns `err`
with count 0 and total 0; `getVideosDuration` returns 0 with the error of the
first failing item and sends no request for the items after it. -/
theorem getPlaylistDetails_failure_atomic (videos : GoString → Fetch VideoDurationResponse)
    (dur : GoString → Int) (earlier : List PlaylistItemsResponse)
    (failing : Fetch PlaylistItemsResponse) (later : List (Fetch PlaylistItemsResponse))
    (err : Error)
    (hmore : ∀ p ∈ earlier, p.NextPageToken ≠ [])
    (hres : ∀ p ∈ earlier, ∀ id ∈ p.Items, Resolves videos dur id)
    (hfail : PageFails videos dur failing err) :
    (getPlaylistDetails videos (earlier.map Except.ok ++ failing :: later)).1 =
        Run.ret (0, 0, some err) ∧
      ∀ (good : List GoString) (bad : GoString) (rest : List GoString) (err1 : Error),
        (∀ id ∈ good, Resolves videos dur id) → ItemFails videos bad err1 →
        getVideosDuration videos (good ++ bad :: rest) =
          (Run.ret (0, some err1), (good ++ [bad]).map Request.videos) := by
  refine ⟨?_, fun good bad rest err1 hgood hbad =>
    getVideosDuration_fails videos dur good bad rest err1 hgood hbad⟩
  have hpre := getPlaylistDetailsLoop_good videos dur earlier (failing :: later) hmore hres
    [] 0 0 []
  have h0 : wrap64 0 = 0 := by decide
  rw [h0] at hpre
  rw [getPlaylistDetails, hpre]
  rcases hfail with rfl | ⟨token, good, bad, rest, rfl, hgood, hbad⟩
  · rw [getPlaylistDetailsLoop]
  · rw [getPlaylistDetailsLoop]
    simp only [getVideosDuration_fails videos dur good bad rest err hgood hbad]

/-- Witness of C9: after a page of 50 resolved items, an item without a record
fails the run with `video not found`; and a malformed token stops
`getVideosDuration` at the second of three items. -/
theorem getPlaylistDetails_failure_atomic_witness :
    (getPlaylistDetails sampleVideos
        ([samplePage1].map Except.ok ++
          Except.ok ⟨[], [['b']] ++ ['x'] :: [['b']]⟩ :: [])).1 =
        Run.ret (0, 0, some Error.videoNotFound) ∧
      getVideosDuration sampleVideos ([['b']] ++ ['y'] :: [['b']]) =
        (Run.ret (0, some (Error.numError ['x'] NumErrKind.ErrSyntax)),
          ([['b']] ++ [['y']]).map Request.videos) :=
  ⟨(getPlaylistDetails_failure_atomic sampleVideos sampleDur [samplePage1]
      (Except.ok ⟨[], [['b']] ++ ['x'] :: [['b']]⟩) [] Error.videoNotFound (by decide)
      samplePage1_resolves
      (Or.inr ⟨[], [['b']], ['x'], [['b']], rfl,
        fun id hid => by rw [List.mem_singleton.mp hid]; exact sample_resolves_b,
        Or.inr (Or.inl ⟨rfl, rfl⟩)⟩)).1,
    (getPlaylistDetails_failure_atomic sampleVideos sampleDur [samplePage1]
      (Except.error Error.videoNotFound) [] Error.videoNotFound (by decide)
      samplePage1_resolves (Or.inl rfl)).2 [['b']] ['y'] [['b']]
      (Error.numError ['x'] NumErrKind.ErrSyntax)
      (fun id hid => by rw [List.mem_singleton.mp hid]; exact sample_resolves_b)
      (Or.inr (Or.inr ⟨"PTxM".toList, [], 0, rfl, by decide⟩))⟩

/-! ## The average length and the playback speeds -/

/-- C6: on a playlist whose only page has no items and no continuation token,
`getPlaylistDetails` returns count 0, total 0 and no error, and the division
that computes the average length panics with an integer division by zero, so
that `main` produces no report. -/
theorem average_of_empty_playlist_panics (videos : GoString → Fetch VideoDurationResponse)
    (later : List (Fetch PlaylistItemsResponse)) (playlistURL : GoString)
    (hurl : (extractPlaylistID playlistURL).2 = none) :
    (getPlaylistDetails videos (Except.ok ⟨[], []⟩ :: later)).1 = Run.ret (0, 0, none) ∧
      averageLength 0 0 = Run.panic Panic.integerDivideByZero ∧
      main playlistURL videos (Except.ok ⟨[], []⟩ :: later) =
        Run.panic Panic.integerDivideByZero := by
  have hdetails : (getPlaylistDetails videos (Except.ok ⟨[], []⟩ :: later)).1 =
      Run.ret (0, 0, none) := by
    simp [getPlaylistDetails, getPlaylistDetailsLoop, getVideosDuration, getVideosDurationLoop]
    decide
  have havg : averageLength 0 0 = Run.panic Panic.integerDivideByZero := by decide
  refine ⟨hdetails, havg, ?_⟩
  rcases hx : extractPlaylistID playlistURL with ⟨id, e⟩
  rw [hx] at hurl
  simp only at hurl
  subst hurl
  simp only [main, hx, hdetails, havg]

/-- Witness of C6: the url `list=PL0` and an empty playlist. -/
theorem average_of_empty_playlist_panics_witness :
    main "list=PL0".toList sampleVideos [Except.ok ⟨[], []⟩] =
      Run.panic Panic.integerDivideByZero :=
  (average_of_empty_playlist_panics sampleVideos [] "list=PL0".toList (by decide)).2.2

/-- C4: what the code computes for a total of 7200 s.  The speed is converted to
an integer duration before the division, so 1.25, 1.5 and 1.75 all divide by 1:
the adjusted duration for 1.25 is 7200 s, not 5760 s; only 2.0 gives 3600 s. -/
theorem adjustedDuration_truncates_speed :
    playbackSpeeds = [5 / 4, 3 / 2, 7 / 4, 2] ∧
      adjustedDurations (7200 * Second) playbackSpeeds =
        Run.ret [7200 * Second, 7200 * Second, 7200 * Second, 3600 * Second] ∧
      adjustedDuration (7200 * Second) (mkRat 125 100) = Run.ret (7200 * Second) ∧
      adjustedDuration (7200 * Second) (mkRat 125 100) ≠ Run.ret (5760 * Second) ∧
      adjustedDuration (7200 * Second) (mkRat 2 1) = Run.ret (3600 * Second) := by
  refine ⟨?_, by decide, by decide, by decide, by decide⟩
  simp only [playbackSpeeds, Rat.mkRat_eq_div]
  norm_num

end PlaylistLength
